import Mathlib

/-!
Verification of the dnaio FASTQ core (`src/dnaio/_core.pyx`).

Byte strings are modelled as `List Nat` (one entry per byte).  The buffered
parser `FastqIter` is modelled as a fuel-indexed state machine over `PState`;
`readIntoBuffer` and `nextLoop` mirror `FastqIter._read_into_buffer` and
`FastqIter.__next__` line by line.  A buffer-free abstract machine `absNext`
over `AState` is related to the concrete machine by a simulation argument,
which yields the buffer-capacity-transparency and round-trip results.
-/

namespace Dnaio

/-- Read byte `i` of a buffer; out-of-range reads yield 0, which doubles as
the C string NUL terminator at position `l.length`. -/
def at0 (l : List Nat) (i : Nat) : Nat := l.getD i 0

/-- `memchr(l, b'\n', l.length)`: offset of the first newline byte, if any. -/
def findNl : List Nat → Option Nat
  | [] => none
  | c :: r => if c = 10 then some 0 else (findNl r).map (· + 1)

/-- `bytes.count(b'\n')`. -/
def countNl : List Nat → Nat
  | [] => 0
  | c :: r => (if c = 10 then 1 else 0) + countNl r

/-- Whether the byte string contains a CR immediately followed by an LF. -/
def hasCRLF : List Nat → Bool
  | [] => false
  | [_] => false
  | a :: b :: r => (a = 13 && b = 10) || hasCRLF (b :: r)

/-- C `strncmp(a, b, n) == 0`: compare at most `n` bytes, stopping early at a
NUL byte that occurs in both strings at the same position. -/
def strncmpEq : List Nat → List Nat → Nat → Bool
  | _, _, 0 => true
  | [], [], _ + 1 => true
  | [], _ :: _, _ + 1 => false
  | _ :: _, [], _ + 1 => false
  | x :: xs, y :: ys, n + 1 =>
    if x ≠ y then false else if x = 0 then true else strncmpEq xs ys n

/-- The four `memchr` scans of `FastqIter.__next__`, performed on the pending
slice `buffer[record_start:bytes_in_buffer]`; offsets are relative to
`record_start`.  Returns `(name_end, sequence_end, second_header_end,
qualities_end)` or `none` if fewer than four newlines are present. -/
def scan4 (p : List Nat) : Option (Nat × Nat × Nat × Nat) :=
  match findNl p with
  | none => none
  | some i =>
    let ne := i
    match findNl (p.drop (ne + 1)) with
    | none => none
    | some j =>
      let se := ne + 1 + j
      match findNl (p.drop (se + 1)) with
      | none => none
      | some k =>
        let he := se + 1 + k
        match findNl (p.drop (he + 1)) with
        | none => none
        | some l => some (ne, se, he, he + 1 + l)

/-- Payloads of the `FastqFormatError` messages raised by the parser.  Each
constructor carries the bytes interpolated into the corresponding message
string, so "the message contains X" is modelled as "the payload is X". -/
inductive Msg where
  /-- Message: line expected to start with an at-sign, but found byte `c`. -/
  | startChar (c : Nat)
  /-- Message: line expected to start with a plus, but found byte `c`. -/
  | plusChar (c : Nat)
  /-- Message: sequence descriptions do not match; carries both headers. -/
  | headerMismatch (h1 h2 : List Nat)
  /-- Message: length of sequence and qualities differ. -/
  | lengthMismatch
  /-- Message: premature end of file; carries the incomplete final record. -/
  | prematureEnd (tail : List Nat)
  deriving DecidableEq

/-- One observable outcome of a pull on the iterator: the special first
boolean, a record, `StopIteration`, or a raised `FastqFormatError`. -/
inductive Ev where
  | header (two : Bool)
  | record (name seq qual : List Nat)
  | fin
  | fail (m : Msg) (line : Nat)
  deriving DecidableEq

/-- The validation and slicing part of `FastqIter.__next__`, applied once the
four newline offsets (relative to `record_start`) are known.  `p` is the
pending slice and `n` is `number_of_records`. -/
def parseRecord (p : List Nat) (n : Nat) (ne se he qe : Nat) :
    Except (Msg × Nat) (List Nat × List Nat × List Nat × Bool) :=
  if at0 p 0 ≠ 64 then .error (.startChar (at0 p 0), n * 4)
  else if at0 p (se + 1) ≠ 43 then .error (.plusChar (at0 p (se + 1)), n * 4 + 2)
  else
    let name_start := 1
    let second_header_start := se + 2
    let name_length := ne - name_start
    let sequence_start := ne + 1
    let sequence_length := se - sequence_start
    let second_header_length := he - second_header_start
    let qualities_start := he + 1
    let qualities_length := qe - qualities_start
    -- Check for \r\n line-endings and compensate
    let name_length := if at0 p (ne - 1) = 13 then name_length - 1 else name_length
    let sequence_length := if at0 p (se - 1) = 13 then sequence_length - 1 else sequence_length
    let second_header_length :=
      if at0 p (he - 1) = 13 then second_header_length - 1 else second_header_length
    let qualities_length := if at0 p (qe - 1) = 13 then qualities_length - 1 else qualities_length
    if second_header_length ≠ 0 ∧
        (name_length ≠ second_header_length ∨
          strncmpEq (p.drop second_header_start) (p.drop name_start) second_header_length
            = false) then
      .error (.headerMismatch ((p.drop name_start).take (ne - name_start))
        ((p.drop second_header_start).take (he - second_header_start)), n * 4 + 2)
    else if qualities_length ≠ sequence_length then
      .error (.lengthMismatch, n * 4 + 3)
    else
      .ok ((p.drop name_start).take name_length,
           (p.drop sequence_start).take sequence_length,
           (p.drop qualities_start).take qualities_length,
           decide (second_header_length ≠ 0))

/-- The fields of `FastqIter`.  `buffer` holds the `bytes_in_buffer` valid
bytes (so `bytes_in_buffer = buffer.length`); `buffer_size` is the allocated
capacity; `input` is the not-yet-read remainder of the byte source, whose
`read(n)` returns `input.take n`. -/
structure PState where
  buffer : List Nat
  buffer_size : Nat
  record_start : Nat
  number_of_records : Nat
  extra_newline : Bool
  yielded_two_headers : Bool
  eof : Bool
  input : List Nat
  deriving DecidableEq

/-- State of a freshly constructed `FastqIter(file, cls, buffer_size)`. -/
def initState (input : List Nat) (buffer_size : Nat) : PState :=
  ⟨[], buffer_size, 0, 0, false, false, false, input⟩

/-- The pending slice `buffer[record_start:bytes_in_buffer]`. -/
def pending (s : PState) : List Nat := s.buffer.drop s.record_start

/-- First half of `_read_into_buffer`: either double the capacity (single
over-long pending record) or move the pending bytes to the front. -/
def compactOrGrow (s : PState) : PState :=
  if s.record_start = 0 ∧ s.buffer.length = s.buffer_size then
    { s with buffer_size := s.buffer_size * 2 }
  else
    { s with buffer := s.buffer.drop s.record_start, record_start := 0 }

/-- `FastqIter._read_into_buffer`.  The source's `read` returns
`input.take empty_bytes_in_buffer`, which never exceeds the request, so the
code's over-long-read `ValueError` branch is unreachable and not modelled.
The premature-end `FastqFormatError` is the `.error` case. -/
def readIntoBuffer (s : PState) : Except (Msg × Nat) PState :=
  let s1 := compactOrGrow s
  let empty := s1.buffer_size - s1.buffer.length
  let chunk := s1.input.take empty
  let s2 := { s1 with buffer := s1.buffer ++ chunk, input := s1.input.drop empty }
  if chunk.length ≠ 0 then .ok s2
  else if s2.buffer.length = 0 then .ok { s2 with eof := true }
  else if ¬ s2.extra_newline ∧ s2.buffer.getLast? ≠ some 10 then
    .ok { s2 with buffer := s2.buffer ++ [10], extra_newline := true }
  else
    let b := if s2.extra_newline then s2.buffer.length - 1 else s2.buffer.length
    let t := (s2.buffer.take b).drop s2.record_start
    .error (.prematureEnd t, s2.number_of_records * 4 + countNl t)

/-- `FastqIter.__next__`: repeatedly scan for four newlines, refilling the
buffer whenever a scan fails, then validate and emit.  The `while True` loop
is indexed by fuel; `none` means the fuel ran out. -/
def nextLoop : Nat → PState → Option (Ev × PState)
  | 0, _ => none
  | fuel + 1, s =>
    if s.eof then some (.fin, s)
    else
      match scan4 (pending s) with
      | none =>
        match readIntoBuffer s with
        | .error e => some (.fail e.1 e.2, s)
        | .ok s1 => nextLoop fuel s1
      | some (ne, se, he, qe) =>
        match parseRecord (pending s) s.number_of_records ne se he qe with
        | .error e => some (.fail e.1 e.2, s)
        | .ok (name, seq, qual, two) =>
          if s.number_of_records = 0 ∧ ¬ s.yielded_two_headers then
            some (.header two, { s with yielded_two_headers := true })
          else
            some (.record name seq qual,
              { s with number_of_records := s.number_of_records + 1,
                       record_start := s.record_start + qe + 1 })

/-- Whether iteration continues after this event. -/
def contEv : Ev → Bool
  | .header _ => true
  | .record _ _ _ => true
  | .fin => false
  | .fail _ _ => false

/-- Iterate the parser, collecting every yielded value and the terminating
`StopIteration` or error; `none` means the fuel ran out. -/
def runEvents : Nat → PState → Option (List Ev)
  | 0, _ => none
  | fuel + 1, s =>
    match nextLoop (fuel + 1) s with
    | none => none
    | some (ev, s1) =>
      if contEv ev then (runEvents fuel s1).map (ev :: ·) else some [ev]

def isHeaderEv : Ev → Bool
  | .header _ => true
  | _ => false

def isRecordEv : Ev → Bool
  | .record _ _ _ => true
  | _ => false

def isPrematureEv : Ev → Bool
  | .fail (.prematureEnd _) _ => true
  | _ => false

/-- Number of `header` events in a list. -/
def countHeader : List Ev → Nat
  | [] => 0
  | e :: r => (if isHeaderEv e then 1 else 0) + countHeader r

/-- Abstract, buffer-free view of the parser state: the concatenation of the
pending buffer slice and the unread input, plus the observable flags. -/
structure AState where
  tail : List Nat
  extra : Bool
  n : Nat
  yielded : Bool
  eof : Bool
  deriving DecidableEq

/-- Abstraction function from concrete to abstract states. -/
def absOf (s : PState) : AState :=
  ⟨pending s ++ s.input, s.extra_newline, s.number_of_records,
   s.yielded_two_headers, s.eof⟩

/-- Abstract emission once a full record has been located at the head of the
tail. -/
def absEmit (a : AState) (ne se he qe : Nat) : Ev × AState :=
  match parseRecord a.tail a.n ne se he qe with
  | .error e => (.fail e.1 e.2, a)
  | .ok (name, seq, qual, two) =>
    if a.n = 0 ∧ ¬ a.yielded then (.header two, { a with yielded := true })
    else (.record name seq qual,
      { a with n := a.n + 1, tail := a.tail.drop (qe + 1) })

/-- One pull of the abstract machine: scan the whole remaining tail; if no
full record is present, either stop (empty tail), retry once with a synthetic
trailing newline, or fail with the premature-end error. -/
def absNext (a : AState) : Ev × AState :=
  if a.eof then (.fin, a)
  else
    match scan4 a.tail with
    | some (ne, se, he, qe) => absEmit a ne se he qe
    | none =>
      if a.tail.length = 0 then (.fin, { a with eof := true })
      else if ¬ a.extra ∧ a.tail.getLast? ≠ some 10 then
        match scan4 (a.tail ++ [10]) with
        | some (ne, se, he, qe) =>
          absEmit { a with tail := a.tail ++ [10], extra := true } ne se he qe
        | none =>
          (.fail (.prematureEnd a.tail) (a.n * 4 + countNl a.tail), a)
      else
        let b := if a.extra then a.tail.dropLast else a.tail
        (.fail (.prematureEnd b) (a.n * 4 + countNl b), a)

/-- The first record located and validated by the parser on a given stream,
together with the repeated-header boolean: a direct reading of the scan,
synthetic-newline and validation steps. -/
def firstParse (t : List Nat) : Option (List Nat × List Nat × List Nat × Bool) :=
  match scan4 t with
  | some (ne, se, he, qe) => (parseRecord t 0 ne se he qe).toOption
  | none =>
    if t.length ≠ 0 ∧ t.getLast? ≠ some 10 then
      match scan4 (t ++ [10]) with
      | some (ne, se, he, qe) => (parseRecord (t ++ [10]) 0 ne se he qe).toOption
      | none => none
    else none

/-- Well-formedness of a parser state: the pending range lies inside the
filled part of the buffer, which fits the capacity, and the capacity is
positive (enforced by `FastqIter.__cinit__`). -/
def WF (s : PState) : Prop :=
  s.record_start ≤ s.buffer.length ∧ s.buffer.length ≤ s.buffer_size ∧ 1 ≤ s.buffer_size

/-! ## Serializer (`create_fastq_record`, backing `fastq_bytes`) -/

/-- `memcpy(buf + i, src, src.length)` on a byte buffer. -/
def writeAt (buf : List Nat) (i : Nat) (src : List Nat) : List Nat :=
  buf.take i ++ src ++ buf.drop (i + src.length)

/-- `create_fastq_record`: allocate one output of the exact final size and
write `@`, name, `\n`, sequence, `\n`, `+`, optional repeated name, `\n`,
qualities, `\n` at increasing cursor positions. -/
def create_fastq_record (name seq qual : List Nat) (two_headers : Bool) : List Nat :=
  let name_length := name.length
  let sequence_length := seq.length
  let qualities_length := qual.length
  let total_size := name_length + sequence_length + qualities_length + 6 +
    (if two_headers then name_length else 0)
  let buf := List.replicate total_size 0
  let buf := writeAt buf 0 [64]
  let buf := writeAt buf 1 name
  let cursor := name_length + 1
  let buf := writeAt buf cursor [10]
  let cursor := cursor + 1
  let buf := writeAt buf cursor seq
  let cursor := cursor + sequence_length
  let buf := writeAt buf cursor [10]
  let cursor := cursor + 1
  let buf := writeAt buf cursor [43]
  let cursor := cursor + 1
  let buf := if two_headers then writeAt buf cursor name else buf
  let cursor := if two_headers then cursor + name_length else cursor
  let buf := writeAt buf cursor [10]
  let cursor := cursor + 1
  let buf := writeAt buf cursor qual
  let cursor := cursor + qualities_length
  writeAt buf cursor [10]

/-! ## Pair-mate identity (`record_ids_match`) -/

/-- `strcspn(h, b' \t')`: length of the initial segment free of space, tab
and NUL (an embedded NUL terminates the C string scan). -/
def id2End : List Nat → Nat
  | [] => 0
  | c :: r => if c = 0 ∨ c = 32 ∨ c = 9 then 0 else id2End r + 1

/-- `record_ids_match(header1, header2, header1_length)`.  When the computed
ID end is 0 (header2 empty, or starting with space/tab/NUL) the C code reads
`header1[id2_length - 1]` with an unsigned wrap-around, i.e. the byte before
the buffer: that out-of-bounds execution is modelled as `none`. -/
def record_ids_match (header1 header2 : List Nat) (header1_length : Nat) : Option Bool :=
  let id2_length := id2End header2
  if header1_length < id2_length then some false
  else
    let e := at0 header1 id2_length
    if e ≠ 0 ∧ e ≠ 32 ∧ e ≠ 9 then some false
    else if id2_length = 0 then none
    else
      let id1endswithnumber := 49 ≤ at0 header1 (id2_length - 1) ∧ at0 header1 (id2_length - 1) ≤ 51
      let id2endswithnumber := 49 ≤ at0 header2 (id2_length - 1) ∧ at0 header2 (id2_length - 1) ≤ 51
      let id2_length := if id1endswithnumber ∧ id2endswithnumber then id2_length - 1 else id2_length
      some (decide (header1.take id2_length = header2.take id2_length))

/-- Position of the first space or tab in a header, or its length if none:
step 1 of the specification's IdMatcher policy. -/
def firstWs : List Nat → Nat
  | [] => 0
  | c :: r => if c = 32 ∨ c = 9 then 0 else firstWs r + 1

/-- The specification's IdMatcher policy (spec section 4.2), written from its
five numbered steps, for comparison with `record_ids_match`. -/
def idsMatchSpec (h1 h2 : List Nat) (len1 : Nat) : Bool :=
  let id2_end := firstWs h2
  if len1 < id2_end then false
  else if ¬ (h1.length ≤ id2_end ∨ at0 h1 id2_end = 32 ∨ at0 h1 id2_end = 9) then false
  else
    let strip := (49 ≤ at0 h1 (id2_end - 1) ∧ at0 h1 (id2_end - 1) ≤ 51) ∧
                 (49 ≤ at0 h2 (id2_end - 1) ∧ at0 h2 (id2_end - 1) ≤ 51)
    let k := if strip then id2_end - 1 else id2_end
    decide (h1.take k = h2.take k)

/-! ## Paired head scan (`paired_fastq_heads`) -/

/-- The scanning loop of `paired_fastq_heads`, fuelled by the length of the
first buffer (each iteration consumes at least one of its bytes). -/
def pfhLoop : Nat → List Nat → List Nat → Nat → Nat → Nat → Nat → Nat → Nat × Nat
  | 0, _, _, _, _, _, rs1, rs2 => (rs1, rs2)
  | fuel + 1, r1, r2, pos1, pos2, linebreaks, rs1, rs2 =>
    match findNl r1 with
    | none => (rs1, rs2)
    | some i =>
      match findNl r2 with
      | none => (rs1, rs2)
      | some j =>
        let pos1 := pos1 + i + 1
        let pos2 := pos2 + j + 1
        if linebreaks + 1 = 4 then
          pfhLoop fuel (r1.drop (i + 1)) (r2.drop (j + 1)) pos1 pos2 0 pos1 pos2
        else
          pfhLoop fuel (r1.drop (i + 1)) (r2.drop (j + 1)) pos1 pos2 (linebreaks + 1) rs1 rs2

/-- `paired_fastq_heads(buf1, buf2, end1, end2)`: walk both buffers newline
by newline, remembering the positions after every fourth newline in both. -/
def paired_fastq_heads (buf1 buf2 : List Nat) (end1 end2 : Nat) : Nat × Nat :=
  let d1 := buf1.take end1
  let d2 := buf2.take end2
  pfhLoop (d1.length + 1) d1 d2 0 0 0 0 0

/-- The serialized single-header record, in cons-normal form. -/
def serForm (nm sq ql : List Nat) : List Nat :=
  64 :: (nm ++ 10 :: (sq ++ 10 :: (43 :: (10 :: (ql ++ [10])))))

/-- Concrete stream `@r1\nACGT\n+\n!!!!\n`: one well-formed record. -/
def exFull : List Nat :=
  [64, 114, 49, 10, 65, 67, 71, 84, 10, 43, 10, 33, 33, 33, 33, 10]

/-- Concrete stream `@r1\nACGT\n+\n!!`: the quality line is complete only
after the synthetic final newline, and is shorter than the sequence. -/
def exShortQual : List Nat :=
  [64, 114, 49, 10, 65, 67, 71, 84, 10, 43, 10, 33, 33]

/-- Concrete stream `@x\r\r\nAC\n+\n!!\n`: the name ends in a carriage
return that survives the end-of-line stripping. -/
def exCRName : List Nat :=
  [64, 120, 13, 13, 10, 65, 67, 10, 43, 10, 33, 33, 10]

/-- Concrete stream `A\n\n\n\n`: the first record line does not start
with an at-sign. -/
def exBadStart : List Nat := [65, 10, 10, 10, 10]

/-- The parser state reached from `exBadStart` at the moment the
at-sign check fails: one refill has happened, nothing was consumed. -/
def exBadStartState : PState :=
  ⟨[65, 10, 10, 10, 10], 8, 0, 0, false, false, false, []⟩

/-- A drained parser state: end of file seen, empty pending slice. -/
def exEofState : PState := ⟨[], 4, 0, 0, false, false, true, []⟩

/-- The parser state reached from `exFull` (capacity 32) after the pull
that yields the header boolean: the flag is set, nothing is consumed. -/
def exHeaderState : PState :=
  ⟨[64, 114, 49, 10, 65, 67, 71, 84, 10, 43, 10, 33, 33, 33, 33, 10],
    32, 0, 0, false, true, false, []⟩

/-- The parser state reached from `exHeaderState` after the pull that
yields the first record: the record is consumed and counted. -/
def exRecordState : PState :=
  ⟨[64, 114, 49, 10, 65, 67, 71, 84, 10, 43, 10, 33, 33, 33, 33, 10],
    32, 16, 1, false, true, false, []⟩

/-! ## Byte-access and newline-scan lemmas -/

theorem at0_nil (i : Nat) : at0 [] i = 0 := rfl

theorem at0_cons_zero (c : Nat) (l : List Nat) : at0 (c :: l) 0 = c := rfl

theorem at0_cons_succ (c : Nat) (l : List Nat) (i : Nat) :
    at0 (c :: l) (i + 1) = at0 l i := rfl

theorem at0_append_left {l : List Nat} (r : List Nat) {i : Nat} (h : i < l.length) :
    at0 (l ++ r) i = at0 l i :=
  List.getD_append l r 0 i h

theorem at0_append_right (l r : List Nat) (i : Nat) :
    at0 (l ++ r) (l.length + i) = at0 r i := by
  unfold at0
  rw [List.getD_append_right l r 0 (l.length + i) (Nat.le_add_right _ _)]
  simp

theorem at0_drop (l : List Nat) (n i : Nat) : at0 (l.drop n) i = at0 l (n + i) := by
  unfold at0
  simp [List.getD_eq_getElem?_getD, List.getElem?_drop]

theorem at0_lt_length_mem {l : List Nat} {i : Nat} (h : i < l.length) : at0 l i ∈ l := by
  unfold at0
  rw [List.getD_eq_getElem?_getD, List.getElem?_eq_getElem h]
  exact List.getElem_mem h

theorem at0_eq_zero_of_le {l : List Nat} {i : Nat} (h : l.length ≤ i) : at0 l i = 0 := by
  unfold at0
  rw [List.getD_eq_getElem?_getD, List.getElem?_eq_none h]
  rfl

theorem at0_eq_zero_iff {l : List Nat} (h0 : 0 ∉ l) (i : Nat) :
    at0 l i = 0 ↔ l.length ≤ i := by
  constructor
  · intro hz
    by_contra hlt
    exact h0 (hz ▸ at0_lt_length_mem (Nat.lt_of_not_le hlt))
  · exact at0_eq_zero_of_le

theorem countNl_append (l r : List Nat) : countNl (l ++ r) = countNl l + countNl r := by
  induction l with
  | nil => simp [countNl]
  | cons c t ih => simp [countNl, ih]; omega

theorem findNl_some_lt {l : List Nat} {i : Nat} (h : findNl l = some i) : i < l.length := by
  induction l generalizing i with
  | nil => simp [findNl] at h
  | cons c t ih =>
    by_cases hc : c = 10
    · simp [findNl, hc] at h; simp [List.length_cons]; omega
    · simp [findNl, hc] at h
      obtain ⟨j, hj, rfl⟩ := h
      have := ih hj
      simp [List.length_cons]; omega

theorem findNl_some_at {l : List Nat} {i : Nat} (h : findNl l = some i) : at0 l i = 10 := by
  induction l generalizing i with
  | nil => simp [findNl] at h
  | cons c t ih =>
    by_cases hc : c = 10
    · simp [findNl, hc] at h; subst h; simpa [at0_cons_zero]
    · simp [findNl, hc] at h
      obtain ⟨j, hj, rfl⟩ := h
      rw [at0_cons_succ]
      exact ih hj

theorem findNl_some_take {l : List Nat} {i : Nat} (h : findNl l = some i) :
    countNl (l.take i) = 0 := by
  induction l generalizing i with
  | nil => simp [findNl] at h
  | cons c t ih =>
    by_cases hc : c = 10
    · simp [findNl, hc] at h; subst h; simp [countNl]
    · simp [findNl, hc] at h
      obtain ⟨j, hj, rfl⟩ := h
      simp [countNl, hc, ih hj]

theorem findNl_none_countNl {l : List Nat} (h : findNl l = none) : countNl l = 0 := by
  induction l with
  | nil => rfl
  | cons c t ih =>
    by_cases hc : c = 10
    · simp [findNl, hc] at h
    · simp [findNl, hc] at h
      simp [countNl, hc, ih h]

theorem findNl_append_some {l : List Nat} {i : Nat} (r : List Nat) (h : findNl l = some i) :
    findNl (l ++ r) = some i := by
  induction l generalizing i with
  | nil => simp [findNl] at h
  | cons c t ih =>
    by_cases hc : c = 10
    · simp [findNl, hc] at h ⊢; exact h
    · simp [findNl, hc] at h ⊢
      obtain ⟨j, hj, rfl⟩ := h
      exact ⟨j, ih hj, rfl⟩

theorem findNl_none_of_not_mem {l : List Nat} (h : 10 ∉ l) : findNl l = none := by
  induction l with
  | nil => rfl
  | cons c t ih =>
    have hc : c ≠ 10 := fun hh => h (hh ▸ List.mem_cons_self c t)
    simp [findNl, hc, ih (fun ht => h (List.mem_cons_of_mem c ht))]

theorem findNl_append_nl {l : List Nat} (r : List Nat) (h : 10 ∉ l) :
    findNl (l ++ 10 :: r) = some l.length := by
  induction l with
  | nil => simp [findNl]
  | cons c t ih =>
    have hc : c ≠ 10 := fun hh => h (hh ▸ List.mem_cons_self c t)
    simp [findNl, hc, ih (fun ht => h (List.mem_cons_of_mem c ht))]

/-! ## The scan and the validation depend only on the scanned prefix -/

theorem scan4_nil : scan4 [] = none := rfl

theorem scan4_some_bounds {p : List Nat} {ne se he qe : Nat}
    (h : scan4 p = some (ne, se, he, qe)) :
    ne < se ∧ se < he ∧ he < qe ∧ qe < p.length := by
  unfold scan4 at h
  split at h
  · exact Option.noConfusion h
  next i h1 =>
    try simp only [] at h
    split at h
    · exact Option.noConfusion h
    next j h2 =>
      try simp only [] at h
      split at h
      · exact Option.noConfusion h
      next k h3 =>
        try simp only [] at h
        split at h
        · exact Option.noConfusion h
        next l h4 =>
          have b1 := findNl_some_lt h1
          have b2 := findNl_some_lt h2
          have b3 := findNl_some_lt h3
          have b4 := findNl_some_lt h4
          rw [List.length_drop] at b2 b3 b4
          simp only [Option.some.injEq, Prod.mk.injEq] at h
          obtain ⟨rfl, rfl, rfl, rfl⟩ := h
          omega

theorem scan4_append {p : List Nat} {x : Nat × Nat × Nat × Nat} (ext : List Nat)
    (h : scan4 p = some x) : scan4 (p ++ ext) = some x := by
  unfold scan4 at h ⊢
  split at h
  · exact Option.noConfusion h
  next i h1 =>
    try simp only [] at h
    have b1 := findNl_some_lt h1
    rw [findNl_append_some ext h1]
    try simp only []
    rw [@List.drop_append_of_le_length _ p ext _ (by omega)]
    split at h
    · exact Option.noConfusion h
    next j h2 =>
      try simp only [] at h
      have b2 := findNl_some_lt h2
      rw [List.length_drop] at b2
      rw [findNl_append_some ext h2]
      try simp only []
      rw [@List.drop_append_of_le_length _ p ext _ (by omega)]
      split at h
      · exact Option.noConfusion h
      next k h3 =>
        try simp only [] at h
        have b3 := findNl_some_lt h3
        rw [List.length_drop] at b3
        rw [findNl_append_some ext h3]
        try simp only []
        rw [@List.drop_append_of_le_length _ p ext _ (by omega)]
        split at h
        · exact Option.noConfusion h
        next l h4 =>
          rw [findNl_append_some ext h4]
          exact h

theorem strncmpEq_zero (u v : List Nat) : strncmpEq u v 0 = true := by
  cases u <;> cases v <;> rfl

theorem strncmpEq_append {n : Nat} :
    ∀ {u v : List Nat} (e1 e2 : List Nat), n ≤ u.length → n ≤ v.length →
      strncmpEq (u ++ e1) (v ++ e2) n = strncmpEq u v n := by
  induction n with
  | zero => intro u v e1 e2 _ _; rw [strncmpEq_zero, strncmpEq_zero]
  | succ m ih =>
    intro u v e1 e2 hu hv
    match u, v with
    | [], _ => simp at hu
    | _ :: _, [] => simp at hv
    | x :: xs, y :: ys =>
      simp only [List.cons_append, strncmpEq]
      split
      · rfl
      · split
        · rfl
        · exact ih e1 e2 (by simpa using hu) (by simpa using hv)

theorem parseRecord_append {p : List Nat} {ne se he qe : Nat} (ext : List Nat) (n : Nat)
    (h1 : ne < se) (h2 : se < he) (h3 : he < qe) (h4 : qe < p.length) :
    parseRecord (p ++ ext) n ne se he qe = parseRecord p n ne se he qe := by
  have e0 : at0 (p ++ ext) 0 = at0 p 0 := at0_append_left ext (by omega)
  have eS1 : at0 (p ++ ext) (se + 1) = at0 p (se + 1) := at0_append_left ext (by omega)
  have eN : at0 (p ++ ext) (ne - 1) = at0 p (ne - 1) := at0_append_left ext (by omega)
  have eS : at0 (p ++ ext) (se - 1) = at0 p (se - 1) := at0_append_left ext (by omega)
  have eH : at0 (p ++ ext) (he - 1) = at0 p (he - 1) := at0_append_left ext (by omega)
  have eQ : at0 (p ++ ext) (qe - 1) = at0 p (qe - 1) := at0_append_left ext (by omega)
  have d1 : (p ++ ext).drop 1 = p.drop 1 ++ ext :=
    List.drop_append_of_le_length (by omega)
  have dSh : (p ++ ext).drop (se + 2) = p.drop (se + 2) ++ ext :=
    List.drop_append_of_le_length (by omega)
  have dSeq : (p ++ ext).drop (ne + 1) = p.drop (ne + 1) ++ ext :=
    List.drop_append_of_le_length (by omega)
  have dQ : (p ++ ext).drop (he + 1) = p.drop (he + 1) ++ ext :=
    List.drop_append_of_le_length (by omega)
  have t1 : (p.drop 1 ++ ext).take (if at0 p (ne - 1) = 13 then ne - 1 - 1 else ne - 1)
      = (p.drop 1).take (if at0 p (ne - 1) = 13 then ne - 1 - 1 else ne - 1) :=
    List.take_append_of_le_length (by rw [List.length_drop]; split <;> omega)
  have t2 : (p.drop 1 ++ ext).take (ne - 1) = (p.drop 1).take (ne - 1) :=
    List.take_append_of_le_length (by rw [List.length_drop]; omega)
  have t3 : (p.drop (se + 2) ++ ext).take (he - (se + 2))
      = (p.drop (se + 2)).take (he - (se + 2)) :=
    List.take_append_of_le_length (by rw [List.length_drop]; omega)
  have t4 : (p.drop (ne + 1) ++ ext).take
        (if at0 p (se - 1) = 13 then se - (ne + 1) - 1 else se - (ne + 1))
      = (p.drop (ne + 1)).take
        (if at0 p (se - 1) = 13 then se - (ne + 1) - 1 else se - (ne + 1)) :=
    List.take_append_of_le_length (by rw [List.length_drop]; split <;> omega)
  have t5 : (p.drop (he + 1) ++ ext).take
        (if at0 p (qe - 1) = 13 then qe - (he + 1) - 1 else qe - (he + 1))
      = (p.drop (he + 1)).take
        (if at0 p (qe - 1) = 13 then qe - (he + 1) - 1 else qe - (he + 1)) :=
    List.take_append_of_le_length (by rw [List.length_drop]; split <;> omega)
  have sc : strncmpEq (p.drop (se + 2) ++ ext) (p.drop 1 ++ ext)
        (if at0 p (he - 1) = 13 then he - (se + 2) - 1 else he - (se + 2))
      = strncmpEq (p.drop (se + 2)) (p.drop 1)
        (if at0 p (he - 1) = 13 then he - (se + 2) - 1 else he - (se + 2)) :=
    strncmpEq_append ext ext (by rw [List.length_drop]; split <;> omega)
      (by rw [List.length_drop]; split <;> omega)
  simp only [parseRecord, e0, eS1, eN, eS, eH, eQ, d1, dSh, dSeq, dQ, t1, t2, t3, t4, t5, sc]

/-! ## Refill analysis -/

theorem compactOrGrow_spec (s : PState) :
    (compactOrGrow s).buffer = pending s ∧ (compactOrGrow s).record_start = 0 ∧
    (compactOrGrow s).input = s.input ∧ (compactOrGrow s).extra_newline = s.extra_newline ∧
    (compactOrGrow s).yielded_two_headers = s.yielded_two_headers ∧
    (compactOrGrow s).eof = s.eof ∧
    (compactOrGrow s).number_of_records = s.number_of_records := by
  unfold compactOrGrow pending
  split
  next hc => simp [hc.1]
  next => simp

theorem compactOrGrow_size {s : PState} (hWF : WF s) :
    (compactOrGrow s).buffer.length ≤ (compactOrGrow s).buffer_size ∧
    1 ≤ (compactOrGrow s).buffer_size ∧
    1 ≤ (compactOrGrow s).buffer_size - (compactOrGrow s).buffer.length := by
  obtain ⟨h1, h2, h3⟩ := hWF
  unfold compactOrGrow
  split
  next hc => simp; omega
  next hc =>
    simp only [List.length_drop]
    rw [Decidable.not_and_iff_or_not] at hc
    constructor
    · omega
    constructor
    · omega
    · rcases hc with hc | hc <;> omega

theorem readIntoBuffer_ok_cases {s s' : PState} (hWF : WF s)
    (h : readIntoBuffer s = .ok s') :
    WF s' ∧
    (absOf s' = absOf s
     ∨ (s.input = [] ∧ pending s = [] ∧ absOf s' = { absOf s with eof := true })
     ∨ (s.input = [] ∧ pending s ≠ [] ∧ s.extra_newline = false ∧
        (pending s).getLast? ≠ some 10 ∧
        absOf s' = { absOf s with tail := pending s ++ [10], extra := true })) := by
  obtain ⟨cbuf, crs, cin, cex, cy, ceof, cn⟩ := compactOrGrow_spec s
  obtain ⟨z1, z2, z3⟩ := compactOrGrow_size hWF
  unfold readIntoBuffer at h
  try simp only [] at h
  split at h
  next hch =>
    -- a nonempty chunk was appended: the abstract view is unchanged
    simp only [Except.ok.injEq] at h
    subst h
    have hlen : ((compactOrGrow s).input.take
        ((compactOrGrow s).buffer_size - (compactOrGrow s).buffer.length)).length
        ≤ (compactOrGrow s).buffer_size - (compactOrGrow s).buffer.length := by
      rw [List.length_take]; omega
    refine ⟨⟨?_, ?_, ?_⟩, Or.inl ?_⟩
    · simp [crs]
    · simp only [List.length_append]; omega
    · exact z2
    · unfold absOf pending
      simp only [crs, cbuf, cin, cex, cy, ceof, cn, List.drop_zero, List.append_assoc,
        List.take_append_drop]
      rfl
  next hch =>
    -- chunk empty: the input was exhausted
    have hchunk : (compactOrGrow s).input.take
        ((compactOrGrow s).buffer_size - (compactOrGrow s).buffer.length) = [] := by
      rcases List.eq_nil_or_concat ((compactOrGrow s).input.take
        ((compactOrGrow s).buffer_size - (compactOrGrow s).buffer.length)) with hn | ⟨l, b, hc⟩
      · exact hn
      · exfalso; apply hch; rw [hc]; simp
    have hinput : s.input = [] := by
      rcases (List.take_eq_nil_iff).mp hchunk with hz | hz
      · omega
      · rw [← cin]; exact hz
    rw [hchunk] at h
    split at h
    next hb =>
      -- empty buffer as well: end of iteration
      simp only [Except.ok.injEq] at h
      subst h
      have hpend : pending s = [] := by
        rw [← cbuf]
        simp only [List.append_nil] at hb
        exact List.length_eq_zero.mp (by simpa using hb)
      refine ⟨⟨?_, ?_, ?_⟩, Or.inr (Or.inl ⟨hinput, hpend, ?_⟩)⟩
      · simp [crs]
      · simp only [List.length_append]; simp [List.length_nil]; omega
      · exact z2
      · have hle : s.buffer.length ≤ s.record_start := by
          have hh := congrArg List.length hpend
          simp only [pending, List.length_drop, List.length_nil] at hh
          omega
        unfold absOf pending
        simp only [crs, cbuf, cin, cex, cy, ceof, cn, List.drop_zero, List.append_nil]
        rw [hpend, hinput]
        simp
        omega
    next hb =>
      split at h
      next hsyn =>
        -- append the synthetic newline
        simp only [Except.ok.injEq] at h
        subst h
        have hpend : pending s ≠ [] := by
          intro hz
          apply hb
          simp [cbuf, hz]
        obtain ⟨hex, hlast⟩ := hsyn
        refine ⟨⟨?_, ?_, ?_⟩, Or.inr (Or.inr ⟨hinput, hpend, ?_, ?_, ?_⟩)⟩
        · simp [crs]
        · simp only [List.length_append, List.append_nil]
          simp only [List.length_cons, List.length_nil]
          omega
        · exact z2
        · rw [← cex]; simpa using hex
        · rw [← cbuf]; simpa using hlast
        · unfold absOf pending
          simp only [crs, cbuf, cin, cex, cy, ceof, cn, List.drop_zero, List.append_nil]
          rw [hinput]
          simp [pending]
      next hsyn => exact Except.noConfusion h

theorem readIntoBuffer_error {s : PState} {e : Msg × Nat} (hWF : WF s)
    (h : readIntoBuffer s = .error e) :
    s.input = [] ∧ pending s ≠ [] ∧
    ¬ (s.extra_newline = false ∧ (pending s).getLast? ≠ some 10) ∧
    e = (.prematureEnd (if s.extra_newline then (pending s).dropLast else pending s),
      s.number_of_records * 4 +
        countNl (if s.extra_newline then (pending s).dropLast else pending s)) := by
  obtain ⟨cbuf, crs, cin, cex, cy, ceof, cn⟩ := compactOrGrow_spec s
  obtain ⟨z1, z2, z3⟩ := compactOrGrow_size hWF
  unfold readIntoBuffer at h
  try simp only [] at h
  split at h
  next hch => exact Except.noConfusion h
  next hch =>
    have hchunk : (compactOrGrow s).input.take
        ((compactOrGrow s).buffer_size - (compactOrGrow s).buffer.length) = [] := by
      rcases List.eq_nil_or_concat ((compactOrGrow s).input.take
        ((compactOrGrow s).buffer_size - (compactOrGrow s).buffer.length)) with hn | ⟨l, b, hc⟩
      · exact hn
      · exfalso; apply hch; rw [hc]; simp
    have hinput : s.input = [] := by
      rcases (List.take_eq_nil_iff).mp hchunk with hz | hz
      · omega
      · rw [← cin]; exact hz
    rw [hchunk] at h
    split at h
    next hb => exact Except.noConfusion h
    next hb =>
      split at h
      next hsyn => exact Except.noConfusion h
      next hsyn =>
        have hpend : pending s ≠ [] := by
          intro hz
          apply hb
          simp [cbuf, hz]
        refine ⟨hinput, hpend, ?_, ?_⟩
        · intro hcon
          apply hsyn
          simp only [List.append_nil, cbuf, cex]
          exact ⟨by simp [hcon.1], hcon.2⟩
        · simp only [Except.error.injEq] at h
          subst h
          simp only [List.append_nil, cbuf, cex, crs, cn, List.drop_zero]
          by_cases hx : s.extra_newline
          · simp [hx, ← List.dropLast_eq_take]
          · simp [hx, List.take_length]

/-! ## The simulation between the buffered machine and the abstract machine -/

theorem absNext_eof {a : AState} (h : a.eof = true) : absNext a = (.fin, a) := by
  unfold absNext
  simp [h]

theorem absNext_scan {a : AState} {ne se he qe : Nat} (heof : a.eof = false)
    (h : scan4 a.tail = some (ne, se, he, qe)) :
    absNext a = absEmit a ne se he qe := by
  unfold absNext
  simp [heof, h]

theorem absNext_synth {a : AState} (heof : a.eof = false) (hscan : scan4 a.tail = none)
    (hne : a.tail ≠ []) (hex : a.extra = false) (hlast : a.tail.getLast? ≠ some 10) :
    (absNext a).1 = (absNext { a with tail := a.tail ++ [10], extra := true }).1 ∧
    (contEv (absNext a).1 = true →
      (absNext a).2 = (absNext { a with tail := a.tail ++ [10], extra := true }).2) := by
  have hlen : ¬ a.tail.length = 0 := by
    intro hz; exact hne (List.length_eq_zero.mp hz)
  cases hs2 : scan4 (a.tail ++ [10]) with
  | some x =>
    obtain ⟨ne, se, he, qe⟩ := x
    have hL : absNext a = absEmit { a with tail := a.tail ++ [10], extra := true } ne se he qe := by
      unfold absNext
      simp [heof, hscan, hlen, hex, hlast, hs2]
    have hR : absNext { a with tail := a.tail ++ [10], extra := true }
        = absEmit { a with tail := a.tail ++ [10], extra := true } ne se he qe := by
      unfold absNext
      simp [heof, hs2]
    rw [hL, hR]
    exact ⟨rfl, fun _ => rfl⟩
  | none =>
    have hL : (absNext a).1 = .fail (.prematureEnd a.tail) (a.n * 4 + countNl a.tail) := by
      unfold absNext
      simp [heof, hscan, hlen, hex, hlast, hs2]
    have hR : (absNext { a with tail := a.tail ++ [10], extra := true }).1
        = .fail (.prematureEnd a.tail) (a.n * 4 + countNl a.tail) := by
      unfold absNext
      have hd : (a.tail ++ [10]).dropLast = a.tail := List.dropLast_concat
      simp [heof, hs2, hd]
    refine ⟨hL.trans hR.symm, fun hc => ?_⟩
    rw [hL] at hc
    simp [contEv] at hc

theorem nextLoop_sim :
    ∀ (fuel : Nat) (s : PState) (ev : Ev) (s1 : PState), WF s →
      nextLoop fuel s = some (ev, s1) →
      ev = (absNext (absOf s)).1 ∧
        (contEv ev = true → absOf s1 = (absNext (absOf s)).2 ∧ WF s1) := by
  intro fuel
  induction fuel with
  | zero =>
    intro s ev s1 _ h
    exact Option.noConfusion h
  | succ f ih =>
    intro s ev s1 hWF h
    rw [nextLoop] at h
    by_cases he : s.eof = true
    · rw [if_pos he] at h
      simp only [Option.some.injEq, Prod.mk.injEq] at h
      obtain ⟨rfl, rfl⟩ := h.symm
      rw [absNext_eof (show (absOf s).eof = true from he)]
      exact ⟨rfl, by simp [contEv]⟩
    · have he' : s.eof = false := by simpa using he
      rw [if_neg he] at h
      cases hscan : scan4 (pending s) with
      | some x =>
        obtain ⟨ne, se, sh, qe⟩ := x
        rw [hscan] at h
        try simp only [] at h
        obtain ⟨b1, b2, b3, b4⟩ := scan4_some_bounds hscan
        have hA : scan4 (pending s ++ s.input) = some (ne, se, sh, qe) :=
          scan4_append s.input hscan
        have hAN : absNext (absOf s) = absEmit (absOf s) ne se sh qe :=
          absNext_scan (show (absOf s).eof = false from he') hA
        have hP : parseRecord (pending s ++ s.input) s.number_of_records ne se sh qe
            = parseRecord (pending s) s.number_of_records ne se sh qe :=
          parseRecord_append s.input s.number_of_records b1 b2 b3 b4
        cases hparse : parseRecord (pending s) s.number_of_records ne se sh qe with
        | error e =>
          rw [hparse] at h
          try simp only [] at h
          simp only [Option.some.injEq, Prod.mk.injEq] at h
          obtain ⟨rfl, rfl⟩ := h.symm
          rw [hAN]
          unfold absEmit
          rw [show (absOf s).tail = pending s ++ s.input from rfl,
            show (absOf s).n = s.number_of_records from rfl, hP, hparse]
          exact ⟨rfl, by simp [contEv]⟩
        | ok r =>
          obtain ⟨nm, sq, ql, two⟩ := r
          rw [hparse] at h
          try simp only [] at h
          rw [hAN]
          unfold absEmit
          rw [show (absOf s).tail = pending s ++ s.input from rfl,
            show (absOf s).n = s.number_of_records from rfl, hP, hparse]
          try simp only []
          simp only [show (absOf s).yielded = s.yielded_two_headers from rfl,
            show (absOf s).n = s.number_of_records from rfl,
            show (absOf s).extra = s.extra_newline from rfl,
            show (absOf s).eof = s.eof from rfl,
            show (absOf s).tail = pending s ++ s.input from rfl]
          by_cases hc : s.number_of_records = 0 ∧ ¬ s.yielded_two_headers = true
          · rw [if_pos hc] at h
            simp only [Option.some.injEq, Prod.mk.injEq] at h
            obtain ⟨rfl, rfl⟩ := h.symm
            rw [if_pos hc]
            refine ⟨rfl, fun _ => ⟨?_, ?_⟩⟩
            · unfold absOf pending
              simp
            · exact hWF
          · rw [if_neg hc] at h
            simp only [Option.some.injEq, Prod.mk.injEq] at h
            obtain ⟨rfl, rfl⟩ := h.symm
            rw [if_neg hc]
            have hqlen : qe < (pending s).length := b4
            have hrs : s.record_start ≤ s.buffer.length := hWF.1
            refine ⟨rfl, fun _ => ⟨?_, ?_, ?_, ?_⟩⟩
            · unfold absOf pending
              simp only []
              have hlen2 : qe + 1 ≤ (List.drop s.record_start s.buffer).length := by
                unfold pending at hqlen
                omega
              rw [List.drop_append_of_le_length hlen2, List.drop_drop]
              have hadd : s.record_start + (qe + 1) = s.record_start + qe + 1 := by omega
              rw [hadd]
            · unfold pending at hqlen
              rw [List.length_drop] at hqlen
              simp only []
              omega
            · exact hWF.2.1
            · exact hWF.2.2
      | none =>
        rw [hscan] at h
        try simp only [] at h
        cases hrb : readIntoBuffer s with
        | error e =>
          rw [hrb] at h
          try simp only [] at h
          simp only [Option.some.injEq, Prod.mk.injEq] at h
          obtain ⟨rfl, rfl⟩ := h.symm
          obtain ⟨hin, hpend, hsyn, hne⟩ := readIntoBuffer_error hWF hrb
          have htail : (absOf s).tail = pending s := by
            rw [show (absOf s).tail = pending s ++ s.input from rfl, hin, List.append_nil]
          have hAscan : scan4 (absOf s).tail = none := by rw [htail]; exact hscan
          have hlen : ¬ (absOf s).tail.length = 0 := by
            rw [htail]
            intro hz; exact hpend (List.length_eq_zero.mp hz)
          have hnotsyn : ¬ (¬ (absOf s).extra = true ∧ (absOf s).tail.getLast? ≠ some 10) := by
            rw [htail]
            intro hcon
            exact hsyn ⟨by simpa using hcon.1, hcon.2⟩
          constructor
          · unfold absNext
            rw [show (absOf s).eof = s.eof from rfl, he']
            simp only [Bool.false_eq_true, if_false, hAscan]
            rw [if_neg hlen, if_neg hnotsyn]
            rw [hne]
            rw [show (absOf s).extra = s.extra_newline from rfl, htail,
              show (absOf s).n = s.number_of_records from rfl]
          · intro hc
            subst hne
            simp [contEv] at hc
        | ok s' =>
          rw [hrb] at h
          try simp only [] at h
          obtain ⟨hWF', hcases⟩ := readIntoBuffer_ok_cases hWF hrb
          obtain ⟨ih1, ih2⟩ := ih s' ev s1 hWF' h
          rcases hcases with habs | ⟨hin, hpend, habs⟩ | ⟨hin, hpend, hex, hlast, habs⟩
          · rw [habs] at ih1 ih2
            exact ⟨ih1, ih2⟩
          · -- the source was exhausted with an empty pending slice: eof
            have hfin : absNext (absOf s') = (.fin, absOf s') :=
              absNext_eof (by rw [habs])
            rw [hfin] at ih1 ih2
            have htail : (absOf s).tail = [] := by
              rw [show (absOf s).tail = pending s ++ s.input from rfl, hin, hpend]
              rfl
            have hAN : absNext (absOf s) = (.fin, { absOf s with eof := true }) := by
              unfold absNext
              rw [show (absOf s).eof = s.eof from rfl, he']
              rw [htail]
              simp [scan4_nil, htail]
            rw [hAN]
            subst ih1
            exact ⟨rfl, by simp [contEv]⟩
          · -- a synthetic newline was appended
            have htail : (absOf s).tail = pending s := by
              rw [show (absOf s).tail = pending s ++ s.input from rfl, hin, List.append_nil]
            have hsynth := absNext_synth (a := absOf s)
              (show (absOf s).eof = false from he')
              (by rw [htail]; exact hscan)
              (by rw [htail]; exact hpend)
              (show (absOf s).extra = false from hex)
              (by rw [htail]; exact hlast)
            have habs' : absOf s' = { absOf s with tail := (absOf s).tail ++ [10], extra := true } := by
              rw [habs, htail]
            rw [habs'] at ih1 ih2
            obtain ⟨hs1, hs2⟩ := hsynth
            refine ⟨ih1.trans hs1.symm, fun hc => ?_⟩
            have hc' : contEv (absNext (absOf s)).1 = true := by
              rw [hs1, ← ih1]; exact hc
            obtain ⟨st, wf⟩ := ih2 hc
            exact ⟨st.trans (hs2 hc').symm, wf⟩

/-- Two well-formed parser states with the same abstract view produce the
same event sequences whenever both runs complete within their fuel. -/
theorem runEvents_agree :
    ∀ (f1 f2 : Nat) (s t : PState) (evs1 evs2 : List Ev), WF s → WF t →
      absOf s = absOf t →
      runEvents f1 s = some evs1 → runEvents f2 t = some evs2 → evs1 = evs2 := by
  intro f1
  induction f1 with
  | zero =>
    intro f2 s t evs1 evs2 _ _ _ h1 _
    exact Option.noConfusion h1
  | succ g ihg =>
    intro f2 s t evs1 evs2 hWFs hWFt habs h1 h2
    cases f2 with
    | zero => exact Option.noConfusion h2
    | succ g2 =>
      rw [runEvents] at h1 h2
      cases hn1 : nextLoop (g + 1) s with
      | none => rw [hn1] at h1; exact Option.noConfusion h1
      | some p1 =>
        obtain ⟨ev1, s1⟩ := p1
        cases hn2 : nextLoop (g2 + 1) t with
        | none => rw [hn2] at h2; exact Option.noConfusion h2
        | some p2 =>
          obtain ⟨ev2, t1⟩ := p2
          rw [hn1] at h1
          rw [hn2] at h2
          try simp only [] at h1 h2
          obtain ⟨e1a, e1b⟩ := nextLoop_sim _ _ _ _ hWFs hn1
          obtain ⟨e2a, e2b⟩ := nextLoop_sim _ _ _ _ hWFt hn2
          have hev : ev1 = ev2 := by rw [e1a, e2a, habs]
          by_cases hcont : contEv ev1 = true
          · rw [if_pos hcont] at h1
            rw [if_pos (hev ▸ hcont)] at h2
            cases hr1 : runEvents g s1 with
            | none => rw [hr1] at h1; exact Option.noConfusion h1
            | some r1 =>
              cases hr2 : runEvents g2 t1 with
              | none => rw [hr2] at h2; exact Option.noConfusion h2
              | some r2 =>
                rw [hr1] at h1
                rw [hr2] at h2
                simp only [Option.map_some', Option.some.injEq] at h1 h2
                obtain ⟨st1, wf1⟩ := e1b hcont
                obtain ⟨st2, wf2⟩ := e2b (hev ▸ hcont)
                have habs1 : absOf s1 = absOf t1 := by rw [st1, st2, habs]
                have hrest := ihg g2 s1 t1 r1 r2 wf1 wf2 habs1 hr1 hr2
                rw [← h1, ← h2, hev, hrest]
          · rw [if_neg hcont] at h1
            rw [if_neg (fun hc => hcont (hev ▸ hc))] at h2
            simp only [Option.some.injEq] at h1 h2
            rw [← h1, ← h2, hev]

/-! ## Concrete-side bookkeeping: flags, counters and error lines -/

theorem readIntoBuffer_ok_flags {s s' : PState} (h : readIntoBuffer s = .ok s') :
    s'.number_of_records = s.number_of_records ∧
    s'.yielded_two_headers = s.yielded_two_headers ∧
    s'.record_start = 0 := by
  obtain ⟨cbuf, crs, cin, cex, cy, ceof, cn⟩ := compactOrGrow_spec s
  unfold readIntoBuffer at h
  try simp only [] at h
  split at h
  next =>
    simp only [Except.ok.injEq] at h
    subst h
    exact ⟨cn, cy, crs⟩
  next =>
    split at h
    next =>
      simp only [Except.ok.injEq] at h
      subst h
      exact ⟨cn, cy, crs⟩
    next =>
      split at h
      next =>
        simp only [Except.ok.injEq] at h
        subst h
        exact ⟨cn, cy, crs⟩
      next => exact Except.noConfusion h

theorem parseRecord_error_line {p : List Nat} {n ne se he qe : Nat} {m : Msg} {l : Nat}
    (h : parseRecord p n ne se he qe = .error (m, l)) :
    (∀ c, m = .startChar c → l = n * 4) ∧
    (∀ c, m = .plusChar c → l = n * 4 + 2) ∧
    (∀ a b, m = .headerMismatch a b → l = n * 4 + 2) ∧
    (m = .lengthMismatch → l = n * 4 + 3) := by
  unfold parseRecord at h
  split at h
  · simp only [Except.error.injEq, Prod.mk.injEq] at h
    obtain ⟨rfl, rfl⟩ := h
    exact ⟨fun c hc => rfl, fun c hc => Msg.noConfusion hc, fun a b hc => Msg.noConfusion hc,
      fun hc => Msg.noConfusion hc⟩
  · split at h
    · simp only [Except.error.injEq, Prod.mk.injEq] at h
      obtain ⟨rfl, rfl⟩ := h
      exact ⟨fun c hc => Msg.noConfusion hc, fun c hc => rfl, fun a b hc => Msg.noConfusion hc,
        fun hc => Msg.noConfusion hc⟩
    · try simp only [] at h
      generalize (if at0 p (ne - 1) = 13 then ne - 1 - 1 else ne - 1) = nL at h
      generalize (if at0 p (se - 1) = 13 then se - (ne + 1) - 1 else se - (ne + 1)) = sL at h
      generalize (if at0 p (he - 1) = 13 then he - (se + 2) - 1 else he - (se + 2)) = hL at h
      generalize (if at0 p (qe - 1) = 13 then qe - (he + 1) - 1 else qe - (he + 1)) = qL at h
      split at h
      · simp only [Except.error.injEq, Prod.mk.injEq] at h
        obtain ⟨rfl, rfl⟩ := h
        exact ⟨fun c hc => Msg.noConfusion hc, fun c hc => Msg.noConfusion hc,
          fun a b hc => rfl, fun hc => Msg.noConfusion hc⟩
      · split at h
        · simp only [Except.error.injEq, Prod.mk.injEq] at h
          obtain ⟨rfl, rfl⟩ := h
          exact ⟨fun c hc => Msg.noConfusion hc, fun c hc => Msg.noConfusion hc,
            fun a b hc => Msg.noConfusion hc, fun hc => rfl⟩
        · exact Except.noConfusion h

theorem readIntoBuffer_error_shape {s : PState} {e : Msg × Nat}
    (h : readIntoBuffer s = .error e) :
    e.1 = .prematureEnd (if s.extra_newline then (pending s).dropLast else pending s) ∧
    e.2 = s.number_of_records * 4 +
      countNl (if s.extra_newline then (pending s).dropLast else pending s) := by
  obtain ⟨cbuf, crs, cin, cex, cy, ceof, cn⟩ := compactOrGrow_spec s
  unfold readIntoBuffer at h
  try simp only [] at h
  split at h
  next => exact Except.noConfusion h
  next hch =>
    have hchunk : (compactOrGrow s).input.take
        ((compactOrGrow s).buffer_size - (compactOrGrow s).buffer.length) = [] := by
      rcases List.eq_nil_or_concat ((compactOrGrow s).input.take
        ((compactOrGrow s).buffer_size - (compactOrGrow s).buffer.length)) with hn | ⟨l, b, hc⟩
      · exact hn
      · exfalso; apply hch; rw [hc]; simp
    rw [hchunk] at h
    split at h
    next => exact Except.noConfusion h
    next =>
      split at h
      next => exact Except.noConfusion h
      next =>
        simp only [Except.error.injEq] at h
        subst h
        simp only [List.append_nil, cbuf, cex, crs, cn, List.drop_zero]
        by_cases hx : s.extra_newline
        · simp [hx, ← List.dropLast_eq_take]
        · simp [hx, List.take_length]

/-- Per-pull bookkeeping: which events are possible from which states, how the
one-shot flag and the record counter evolve, and the line number carried by
each `FastqFormatError`. -/
theorem nextLoop_class :
    ∀ (fuel : Nat) (s : PState) (ev : Ev) (s1 : PState),
      nextLoop fuel s = some (ev, s1) →
      (isHeaderEv ev = true → s.yielded_two_headers = false ∧ s.number_of_records = 0) ∧
      (isRecordEv ev = true → (s.yielded_two_headers = true ∨ s.number_of_records ≠ 0)) ∧
      (contEv ev = true →
        s1.yielded_two_headers = (s.yielded_two_headers || isHeaderEv ev) ∧
        s1.number_of_records = s.number_of_records + (if isRecordEv ev = true then 1 else 0)) ∧
      (∀ c l, ev = .fail (.startChar c) l → l = s.number_of_records * 4) ∧
      (∀ c l, ev = .fail (.plusChar c) l → l = s.number_of_records * 4 + 2) ∧
      (∀ a b l, ev = .fail (.headerMismatch a b) l → l = s.number_of_records * 4 + 2) ∧
      (∀ l, ev = .fail .lengthMismatch l → l = s.number_of_records * 4 + 3) ∧
      (isHeaderEv ev = true → s1.record_start = s.record_start ∨ s1.record_start = 0) := by
  intro fuel
  induction fuel with
  | zero =>
    intro s ev s1 h
    exact Option.noConfusion h
  | succ f ih =>
    intro s ev s1 h
    rw [nextLoop] at h
    by_cases he : s.eof = true
    · rw [if_pos he] at h
      simp only [Option.some.injEq, Prod.mk.injEq] at h
      obtain ⟨rfl, rfl⟩ := h.symm
      refine ⟨fun hc => by simp [isHeaderEv] at hc, fun hc => by simp [isRecordEv] at hc,
        fun hc => by simp [contEv] at hc, fun c l hc => Ev.noConfusion hc,
        fun c l hc => Ev.noConfusion hc, fun a b l hc => Ev.noConfusion hc,
        fun l hc => Ev.noConfusion hc, fun hc => by simp [isHeaderEv] at hc⟩
    · rw [if_neg he] at h
      cases hscan : scan4 (pending s) with
      | some x =>
        obtain ⟨ne, se, sh, qe⟩ := x
        rw [hscan] at h
        try simp only [] at h
        cases hparse : parseRecord (pending s) s.number_of_records ne se sh qe with
        | error e =>
          obtain ⟨m, l⟩ := e
          rw [hparse] at h
          try simp only [] at h
          simp only [Option.some.injEq, Prod.mk.injEq] at h
          obtain ⟨rfl, rfl⟩ := h.symm
          obtain ⟨q1, q2, q3, q4⟩ := parseRecord_error_line hparse
          refine ⟨fun hc => by simp [isHeaderEv] at hc, fun hc => by simp [isRecordEv] at hc,
            fun hc => by simp [contEv] at hc, ?_, ?_, ?_, ?_,
            fun hc => by simp [isHeaderEv] at hc⟩
          · intro c l0 hc
            simp only [Ev.fail.injEq] at hc
            exact hc.2 ▸ q1 c hc.1
          · intro c l0 hc
            simp only [Ev.fail.injEq] at hc
            exact hc.2 ▸ q2 c hc.1
          · intro a b l0 hc
            simp only [Ev.fail.injEq] at hc
            exact hc.2 ▸ q3 a b hc.1
          · intro l0 hc
            simp only [Ev.fail.injEq] at hc
            exact hc.2 ▸ q4 hc.1
        | ok r =>
          obtain ⟨nm, sq, ql, two⟩ := r
          rw [hparse] at h
          try simp only [] at h
          by_cases hc : s.number_of_records = 0 ∧ ¬ s.yielded_two_headers = true
          · rw [if_pos hc] at h
            simp only [Option.some.injEq, Prod.mk.injEq] at h
            obtain ⟨rfl, rfl⟩ := h.symm
            refine ⟨fun _ => ⟨by simpa using hc.2, hc.1⟩, fun hr => by simp [isRecordEv] at hr,
              fun _ => ⟨by simp [isHeaderEv], by simp [isRecordEv]⟩,
              fun c l hcc => Ev.noConfusion hcc, fun c l hcc => Ev.noConfusion hcc,
              fun a b l hcc => Ev.noConfusion hcc, fun l hcc => Ev.noConfusion hcc,
              fun _ => Or.inl rfl⟩
          · rw [if_neg hc] at h
            simp only [Option.some.injEq, Prod.mk.injEq] at h
            obtain ⟨rfl, rfl⟩ := h.symm
            rw [Decidable.not_and_iff_or_not] at hc
            refine ⟨fun hh => by simp [isHeaderEv] at hh, fun _ => ?_,
              fun _ => ⟨by simp [isHeaderEv], by simp [isRecordEv]⟩,
              fun c l hcc => Ev.noConfusion hcc, fun c l hcc => Ev.noConfusion hcc,
              fun a b l hcc => Ev.noConfusion hcc, fun l hcc => Ev.noConfusion hcc,
              fun hh => by simp [isHeaderEv] at hh⟩
            rcases hc with hc | hc
            · exact Or.inr hc
            · exact Or.inl (by simpa using hc)
      | none =>
        rw [hscan] at h
        try simp only [] at h
        cases hrb : readIntoBuffer s with
        | error e =>
          obtain ⟨m, l⟩ := e
          rw [hrb] at h
          try simp only [] at h
          simp only [Option.some.injEq, Prod.mk.injEq] at h
          obtain ⟨rfl, rfl⟩ := h.symm
          have hm : m = .prematureEnd (if s.extra_newline then (pending s).dropLast
              else pending s) := by
            have hx := readIntoBuffer_error_shape hrb
            exact hx.1
          refine ⟨fun hh => by simp [isHeaderEv] at hh, fun hh => by simp [isRecordEv] at hh,
            fun hh => by simp [contEv] at hh, ?_, ?_, ?_, ?_,
            fun hh => by simp [isHeaderEv] at hh⟩
          · intro c l0 hcc
            simp only [Ev.fail.injEq] at hcc
            rw [hm] at hcc
            exact Msg.noConfusion hcc.1
          · intro c l0 hcc
            simp only [Ev.fail.injEq] at hcc
            rw [hm] at hcc
            exact Msg.noConfusion hcc.1
          · intro a b l0 hcc
            simp only [Ev.fail.injEq] at hcc
            rw [hm] at hcc
            exact Msg.noConfusion hcc.1
          · intro l0 hcc
            simp only [Ev.fail.injEq] at hcc
            rw [hm] at hcc
            exact Msg.noConfusion hcc.1
        | ok s' =>
          rw [hrb] at h
          try simp only [] at h
          obtain ⟨fn, fy, frs⟩ := readIntoBuffer_ok_flags hrb
          obtain ⟨c1, c2, c3, c4, c5, c6, c7, c8⟩ := ih s' ev s1 h
          refine ⟨fun hh => by rw [← fy, ← fn]; exact c1 hh,
            fun hh => by rw [← fy, ← fn]; exact c2 hh,
            fun hh => by rw [← fy, ← fn]; exact c3 hh,
            fun c l hh => by rw [← fn]; exact c4 c l hh,
            fun c l hh => by rw [← fn]; exact c5 c l hh,
            fun a b l hh => by rw [← fn]; exact c6 a b l hh,
            fun l hh => by rw [← fn]; exact c7 l hh,
            fun hh => ?_⟩
          rcases c8 hh with hr | hr
          · exact Or.inr (by rw [hr, frs])
          · exact Or.inr hr

/-! ## Header-event uniqueness -/

theorem countHeader_take_le (l : List Ev) : ∀ k, countHeader (l.take k) ≤ countHeader l := by
  induction l with
  | nil => intro k; simp [countHeader]
  | cons e r ih =>
    intro k
    cases k with
    | zero => simp [countHeader]
    | succ j =>
      simp only [List.take_succ_cons, countHeader]
      have := ih j
      omega

theorem notCont_not_header {ev : Ev} (h : ¬ contEv ev = true) :
    isHeaderEv ev = false ∧ isRecordEv ev = false := by
  cases ev <;> simp [contEv, isHeaderEv, isRecordEv] at h ⊢

/-- After the one-shot flag is set, no further pull yields the header event. -/
theorem runEvents_noHeader :
    ∀ (fuel : Nat) (s : PState) (evs : List Ev),
      runEvents fuel s = some evs → s.yielded_two_headers = true →
      countHeader evs = 0 := by
  intro fuel
  induction fuel with
  | zero =>
    intro s evs h
    exact Option.noConfusion h
  | succ f ih =>
    intro s evs h hy
    rw [runEvents] at h
    cases hn : nextLoop (f + 1) s with
    | none => rw [hn] at h; exact Option.noConfusion h
    | some p =>
      obtain ⟨ev, s1⟩ := p
      rw [hn] at h
      try simp only [] at h
      obtain ⟨c1, _, c3, _⟩ := nextLoop_class _ _ _ _ hn
      by_cases hc : contEv ev = true
      · rw [if_pos hc] at h
        cases hr : runEvents f s1 with
        | none => rw [hr] at h; exact Option.noConfusion h
        | some r =>
          rw [hr] at h
          simp only [Option.map_some', Option.some.injEq] at h
          subst h
          have hhd : isHeaderEv ev = false := by
            by_cases hh : isHeaderEv ev = true
            · exact absurd (c1 hh).1 (by rw [hy]; simp)
            · simpa using hh
          have hy1 : s1.yielded_two_headers = true := by
            rw [(c3 hc).1, hy]
            simp
          have := ih s1 r hr hy1
          simp [countHeader, hhd, this]
      · rw [if_neg hc] at h
        simp only [Option.some.injEq] at h
        subst h
        simp [countHeader, (notCont_not_header hc).1]

/-- From a fresh state, at most one header event is produced, and it precedes
every record event. -/
theorem runEvents_headerOnce :
    ∀ (fuel : Nat) (s : PState) (evs : List Ev),
      runEvents fuel s = some evs → s.yielded_two_headers = false →
      s.number_of_records = 0 →
      countHeader evs ≤ 1 ∧
      ∀ i, (hi : i < evs.length) → isRecordEv (evs.get ⟨i, hi⟩) = true →
        countHeader (evs.take i) = 1 := by
  intro fuel
  induction fuel with
  | zero =>
    intro s evs h
    exact Option.noConfusion h
  | succ f ih =>
    intro s evs h hy hn0
    rw [runEvents] at h
    cases hn : nextLoop (f + 1) s with
    | none => rw [hn] at h; exact Option.noConfusion h
    | some p =>
      obtain ⟨ev, s1⟩ := p
      rw [hn] at h
      try simp only [] at h
      obtain ⟨c1, c2, c3, _⟩ := nextLoop_class _ _ _ _ hn
      by_cases hc : contEv ev = true
      · rw [if_pos hc] at h
        cases hr : runEvents f s1 with
        | none => rw [hr] at h; exact Option.noConfusion h
        | some r =>
          rw [hr] at h
          simp only [Option.map_some', Option.some.injEq] at h
          subst h
          cases ev with
          | header b =>
            have hy1 : s1.yielded_two_headers = true := by
              rw [(c3 hc).1, hy]
              simp [isHeaderEv]
            have hr0 := runEvents_noHeader f s1 r hr hy1
            constructor
            · simp [countHeader, isHeaderEv, hr0]
            · intro i hi hrec
              cases i with
              | zero => simp [isRecordEv] at hrec
              | succ j =>
                simp only [List.take_succ_cons, countHeader, isHeaderEv, if_pos]
                have h1 : countHeader (r.take j) ≤ countHeader r := countHeader_take_le r j
                omega
          | record nm sq ql =>
            rcases c2 rfl with hcon | hcon
            · rw [hy] at hcon; exact Bool.noConfusion hcon
            · exact absurd hn0 hcon
          | fin => simp [contEv] at hc
          | fail m l => simp [contEv] at hc
      · rw [if_neg hc] at h
        simp only [Option.some.injEq] at h
        subst h
        obtain ⟨hh, hr⟩ := notCont_not_header hc
        constructor
        · simp [countHeader, hh]
        · intro i hi hrec
          cases i with
          | zero =>
            simp only [List.get] at hrec
            rw [hrec] at hr
            exact Bool.noConfusion hr
          | succ j => simp at hi

/-- Once `eof` is set, every further pull raises `StopIteration` and leaves
the state unchanged. -/
theorem nextLoop_eof {s : PState} (fuel : Nat) (h : s.eof = true) :
    nextLoop (fuel + 1) s = some (.fin, s) := by
  rw [nextLoop, if_pos h]

/-! ## The paired head scan invariant -/

theorem at0_eq_get {l : List Nat} {i : Nat} (h : i < l.length) : at0 l i = l.get ⟨i, h⟩ := by
  unfold at0
  rw [List.getD_eq_getElem?_getD, List.getElem?_eq_getElem h]
  rfl

theorem take_succ_at0 {l : List Nat} {i : Nat} (h : i < l.length) :
    l.take (i + 1) = l.take i ++ [at0 l i] := by
  rw [← List.take_concat_get l i h, List.concat_eq_append, at0_eq_get h]
  rfl

theorem findNl_step {d : List Nat} {pos i : Nat} (h : findNl (d.drop pos) = some i) :
    countNl (d.take (pos + i + 1)) = countNl (d.take pos) + 1 ∧
    at0 d (pos + i) = 10 ∧ pos + i + 1 ≤ d.length ∧
    d.drop (pos + i + 1) = (d.drop pos).drop (i + 1) := by
  have hlt := findNl_some_lt h
  rw [List.length_drop] at hlt
  have hat : at0 (d.drop pos) i = 10 := findNl_some_at h
  rw [at0_drop] at hat
  have htk : countNl ((d.drop pos).take i) = 0 := findNl_some_take h
  have hlt2 : i < (d.drop pos).length := by rw [List.length_drop]; omega
  refine ⟨?_, hat, by omega, ?_⟩
  · rw [show pos + i + 1 = pos + (i + 1) from rfl, List.take_add, countNl_append,
      take_succ_at0 hlt2, countNl_append, htk, at0_drop, hat]
    simp [countNl]
  · rw [List.drop_drop]
    congr 1

theorem pfhLoop_invariant (d1 d2 : List Nat) :
    ∀ (fuel pos1 pos2 lb rs1 rs2 q : Nat),
      d1.length - pos1 < fuel →
      pos1 ≤ d1.length → pos2 ≤ d2.length →
      countNl (d1.take pos1) = 4 * q + lb →
      countNl (d2.take pos2) = 4 * q + lb →
      lb < 4 →
      countNl (d1.take rs1) = 4 * q → countNl (d2.take rs2) = 4 * q →
      (rs1 = 0 ∨ at0 d1 (rs1 - 1) = 10) → (rs2 = 0 ∨ at0 d2 (rs2 - 1) = 10) →
      rs1 ≤ d1.length → rs2 ≤ d2.length →
      countNl (d1.take
          (pfhLoop fuel (d1.drop pos1) (d2.drop pos2) pos1 pos2 lb rs1 rs2).1)
        = 4 * min (countNl d1 / 4) (countNl d2 / 4) ∧
      countNl (d2.take
          (pfhLoop fuel (d1.drop pos1) (d2.drop pos2) pos1 pos2 lb rs1 rs2).2)
        = 4 * min (countNl d1 / 4) (countNl d2 / 4) ∧
      ((pfhLoop fuel (d1.drop pos1) (d2.drop pos2) pos1 pos2 lb rs1 rs2).1 = 0 ∨
        at0 d1 ((pfhLoop fuel (d1.drop pos1) (d2.drop pos2) pos1 pos2 lb rs1 rs2).1 - 1) = 10) ∧
      ((pfhLoop fuel (d1.drop pos1) (d2.drop pos2) pos1 pos2 lb rs1 rs2).2 = 0 ∨
        at0 d2 ((pfhLoop fuel (d1.drop pos1) (d2.drop pos2) pos1 pos2 lb rs1 rs2).2 - 1) = 10) ∧
      (pfhLoop fuel (d1.drop pos1) (d2.drop pos2) pos1 pos2 lb rs1 rs2).1 ≤ d1.length ∧
      (pfhLoop fuel (d1.drop pos1) (d2.drop pos2) pos1 pos2 lb rs1 rs2).2 ≤ d2.length := by
  intro fuel
  induction fuel with
  | zero =>
    intro pos1 pos2 lb rs1 rs2 q hfuel
    omega
  | succ f ih =>
    intro pos1 pos2 lb rs1 rs2 q hfuel hp1 hp2 hc1 hc2 hlb hr1 hr2 hb1 hb2 hrl1 hrl2
    have hsplit1 : countNl d1 = countNl (d1.take pos1) + countNl (d1.drop pos1) := by
      rw [← countNl_append, List.take_append_drop]
    have hsplit2 : countNl d2 = countNl (d2.take pos2) + countNl (d2.drop pos2) := by
      rw [← countNl_append, List.take_append_drop]
    rw [pfhLoop]
    cases hf1 : findNl (d1.drop pos1) with
    | none =>
      -- no further newline in the first buffer: n1 = 4q + lb, so min = q
      have hz1 : countNl (d1.drop pos1) = 0 := findNl_none_countNl hf1
      have hq : countNl d1 / 4 = q := by omega
      have hq2 : q ≤ countNl d2 / 4 := by omega
      refine ⟨?_, ?_, hb1, hb2, hrl1, hrl2⟩ <;> simp only [] <;> omega
    | some i =>
      cases hf2 : findNl (d2.drop pos2) with
      | none =>
        have hz2 : countNl (d2.drop pos2) = 0 := findNl_none_countNl hf2
        have hq : countNl d2 / 4 = q := by omega
        have hq1 : q ≤ countNl d1 / 4 := by omega
        refine ⟨?_, ?_, hb1, hb2, hrl1, hrl2⟩ <;> simp only [] <;> omega
      | some j =>
        try simp only []
        obtain ⟨s1a, s1b, s1c, s1d⟩ := findNl_step hf1
        obtain ⟨s2a, s2b, s2c, s2d⟩ := findNl_step hf2
        rw [← s1d, ← s2d]
        by_cases hfour : lb + 1 = 4
        · rw [if_pos hfour]
          have := ih (pos1 + i + 1) (pos2 + j + 1) 0 (pos1 + i + 1) (pos2 + j + 1) (q + 1)
            (by omega) s1c s2c (by omega) (by omega) (by omega) (by omega) (by omega)
            (Or.inr (by simpa using s1b)) (Or.inr (by simpa using s2b)) s1c s2c
          exact this
        · rw [if_neg hfour]
          have := ih (pos1 + i + 1) (pos2 + j + 1) (lb + 1) rs1 rs2 q
            (by omega) s1c s2c (by omega) (by omega) (by omega) hr1 hr2 hb1 hb2 hrl1 hrl2
          exact this

/-! ## The serializer writes exactly the concatenated record -/

theorem writeAt_replicate (src : List Nat) (m : Nat) (h : src.length ≤ m) :
    writeAt (List.replicate m 0) 0 src = src ++ List.replicate (m - src.length) 0 := by
  unfold writeAt
  simp [List.drop_replicate]

theorem writeAt_step {d : List Nat} (src : List Nat) {m k : Nat} (hk : k = d.length)
    (h : src.length ≤ m) :
    writeAt (d ++ List.replicate m 0) k src = (d ++ src) ++ List.replicate (m - src.length) 0 := by
  unfold writeAt
  subst hk
  rw [List.take_left, List.drop_append, List.drop_replicate]
  try simp [List.append_assoc]

theorem create_fastq_record_eq (name seq qual : List Nat) (two : Bool) :
    create_fastq_record name seq qual two =
      64 :: name ++ 10 :: seq ++ 10 :: 43 :: (if two then name else []) ++
        10 :: qual ++ [10] := by
  cases two
  · unfold create_fastq_record
    try simp only []
    simp only [Bool.false_eq_true, if_false, Nat.add_zero]
    rw [show writeAt (List.replicate (name.length + seq.length + qual.length + 6) 0) 0 [64]
        = [64] ++ List.replicate (name.length + seq.length + qual.length + 6 - 1) 0 by
      rw [writeAt_replicate _ _ (by simp <;> omega)]
      simp]
    rw [writeAt_step name (by simp) (by simp <;> omega)]
    rw [writeAt_step [10] (by simp) (by simp <;> omega)]
    rw [writeAt_step seq (by simp <;> omega) (by simp <;> omega)]
    rw [writeAt_step [10] (by simp <;> omega) (by simp <;> omega)]
    rw [writeAt_step [43] (by simp <;> omega) (by simp <;> omega)]
    rw [writeAt_step [10] (by simp <;> omega) (by simp <;> omega)]
    rw [writeAt_step qual (by simp <;> omega) (by simp <;> omega)]
    rw [writeAt_step [10] (by simp <;> omega) (by simp <;> omega)]
    simp only [List.length_cons, List.length_nil, Nat.zero_add]
    rw [show name.length + seq.length + qual.length + 6 - 1 - name.length - 1 - seq.length
        - 1 - 1 - 1 - qual.length - 1 = 0 by omega]
    simp [List.append_assoc]
  · unfold create_fastq_record
    try simp only []
    simp only [if_true]
    rw [show writeAt (List.replicate (name.length + seq.length + qual.length + 6 +
          name.length) 0) 0 [64]
        = [64] ++ List.replicate (name.length + seq.length + qual.length + 6 +
          name.length - 1) 0 by
      rw [writeAt_replicate _ _ (by simp <;> omega)]
      simp]
    rw [writeAt_step name (by simp) (by simp <;> omega)]
    rw [writeAt_step [10] (by simp) (by simp <;> omega)]
    rw [writeAt_step seq (by simp <;> omega) (by simp <;> omega)]
    rw [writeAt_step [10] (by simp <;> omega) (by simp <;> omega)]
    rw [writeAt_step [43] (by simp <;> omega) (by simp <;> omega)]
    rw [writeAt_step name (by simp <;> omega) (by simp <;> omega)]
    rw [writeAt_step [10] (by simp <;> omega) (by simp <;> omega)]
    rw [writeAt_step qual (by simp <;> omega) (by simp <;> omega)]
    rw [writeAt_step [10] (by simp <;> omega) (by simp <;> omega)]
    simp only [List.length_cons, List.length_nil, Nat.zero_add]
    rw [show name.length + seq.length + qual.length + 6 + name.length - 1 - name.length
        - 1 - seq.length - 1 - 1 - name.length - 1 - qual.length - 1 = 0 by omega]
    simp [List.append_assoc]

theorem hasCRLF_cons_cons (a b : Nat) (r : List Nat) :
    hasCRLF (a :: b :: r) = ((decide (a = 13) && decide (b = 10)) || hasCRLF (b :: r)) := rfl

theorem hasCRLF_append (a b : List Nat) :
    hasCRLF (a ++ b) = (hasCRLF a ||
      (decide (a.getLast? = some 13) && decide (b.head? = some 10)) || hasCRLF b) := by
  induction a with
  | nil => simp [hasCRLF]
  | cons x t ih =>
    cases t with
    | nil =>
      cases b with
      | nil => simp [hasCRLF]
      | cons y r =>
        simp only [List.cons_append, List.nil_append, hasCRLF_cons_cons]
        simp [hasCRLF]
    | cons y u =>
      simp only [List.cons_append] at ih ⊢
      rw [hasCRLF_cons_cons x y (u ++ b), hasCRLF_cons_cons x y u, List.getLast?_cons_cons, ih]
      cases hx : decide (x = 13) && decide (y = 10) <;> simp

theorem hasCRLF_ne_CR {l : List Nat} (h1 : hasCRLF l = false) (h2 : l.getLast? ≠ some 13)
    (b : List Nat) (hb : hasCRLF b = false) :
    hasCRLF (l ++ b) = false := by
  rw [hasCRLF_append]
  simp [h1, hb, h2]

/-! ## ID matching lemmas -/

theorem id2End_le_length (h : List Nat) : id2End h ≤ h.length := by
  induction h with
  | nil => simp [id2End]
  | cons c r ih =>
    unfold id2End
    split
    · simp
    · simp only [List.length_cons]
      omega

theorem id2End_byte {h : List Nat} (hlt : id2End h < h.length) :
    at0 h (id2End h) = 0 ∨ at0 h (id2End h) = 32 ∨ at0 h (id2End h) = 9 := by
  induction h with
  | nil => simp at hlt
  | cons c r ih =>
    unfold id2End at hlt ⊢
    split at hlt
    next hc =>
      rw [if_pos hc]
      rcases hc with hc | hc | hc <;> simp [at0_cons_zero, hc]
    next hc =>
      rw [if_neg hc]
      rw [at0_cons_succ]
      exact ih (by simp at hlt; omega)

theorem id2End_eq_firstWs {h : List Nat} (h0 : 0 ∉ h) : id2End h = firstWs h := by
  induction h with
  | nil => rfl
  | cons c r ih =>
    have hc0 : c ≠ 0 := fun hz => h0 (hz ▸ List.mem_cons_self c r)
    have hr0 : 0 ∉ r := fun hz => h0 (List.mem_cons_of_mem c hz)
    unfold id2End firstWs
    by_cases hws : c = 32 ∨ c = 9
    · rw [if_pos (Or.inr hws), if_pos hws]
    · rw [if_neg (by intro hcon; rcases hcon with hcon | hcon; exact hc0 hcon; exact hws hcon),
        if_neg hws, ih hr0]

theorem record_ids_match_refl {h : List Nat} (hk : 0 < id2End h) :
    record_ids_match h h h.length = some true := by
  unfold record_ids_match
  try simp only []
  rw [if_neg (by have := id2End_le_length h; omega)]
  have hbyte : ¬ (at0 h (id2End h) ≠ 0 ∧ at0 h (id2End h) ≠ 32 ∧ at0 h (id2End h) ≠ 9) := by
    by_cases hlt : id2End h < h.length
    · rcases id2End_byte hlt with hb | hb | hb <;> simp [hb]
    · have : h.length ≤ id2End h := by omega
      simp [at0_eq_zero_of_le this]
  rw [if_neg hbyte, if_neg (by omega)]
  simp

theorem record_ids_match_spec {h1 h2 : List Nat} {L : Nat} {b : Bool}
    (n1 : 0 ∉ h1) (n2 : 0 ∉ h2)
    (h : record_ids_match h1 h2 L = some b) : idsMatchSpec h1 h2 L = b := by
  unfold record_ids_match at h
  unfold idsMatchSpec
  rw [← id2End_eq_firstWs n2]
  try simp only [] at h ⊢
  by_cases hg : L < id2End h2
  · rw [if_pos hg] at h ⊢
    simp only [Option.some.injEq] at h
    exact h
  · rw [if_neg hg] at h ⊢
    have hzero : at0 h1 (id2End h2) = 0 ↔ h1.length ≤ id2End h2 := at0_eq_zero_iff n1 _
    by_cases he : at0 h1 (id2End h2) ≠ 0 ∧ at0 h1 (id2End h2) ≠ 32 ∧ at0 h1 (id2End h2) ≠ 9
    · rw [if_pos he] at h
      simp only [Option.some.injEq] at h
      have hP : ¬ (h1.length ≤ id2End h2 ∨ at0 h1 (id2End h2) = 32 ∨
          at0 h1 (id2End h2) = 9) := by
        intro hcon
        rcases hcon with hcon | hcon | hcon
        · exact he.1 (hzero.mpr hcon)
        · exact he.2.1 hcon
        · exact he.2.2 hcon
      rw [if_pos hP]
      exact h
    · rw [if_neg he] at h
      have hABC : h1.length ≤ id2End h2 ∨ at0 h1 (id2End h2) = 32 ∨
          at0 h1 (id2End h2) = 9 := by
        push_neg at he
        by_cases hz : at0 h1 (id2End h2) = 0
        · exact Or.inl (hzero.mp hz)
        · by_cases h32 : at0 h1 (id2End h2) = 32
          · exact Or.inr (Or.inl h32)
          · exact Or.inr (Or.inr (he hz h32))
      rw [if_neg (fun hcon => hcon hABC)]
      by_cases hid : id2End h2 = 0
      · rw [if_pos hid] at h
        exact Option.noConfusion h
      · rw [if_neg hid] at h
        simp only [Option.some.injEq] at h
        exact h

/-! ## Parsing a serialized record back -/

theorem drop_cons_append (l : List Nat) (c : Nat) (r : List Nat) :
    (l ++ c :: r).drop (l.length + 1) = r := by
  rw [show l ++ c :: r = (l ++ [c]) ++ r by simp,
    show l.length + 1 = (l ++ [c]).length by simp, List.drop_left]

theorem at0_penult {c : Nat} {l : List Nat} (r : List Nat) (hc : c ≠ 13)
    (h : l.getLast? ≠ some 13) : at0 ((c :: l) ++ r) l.length ≠ 13 := by
  rcases List.eq_nil_or_concat l with rfl | ⟨L, a, rfl⟩
  · rw [show ([] : List Nat).length = 0 from rfl,
      at0_append_left r (by simp), at0_cons_zero]
    exact hc
  · rw [List.concat_eq_append] at h ⊢
    have ha : a ≠ 13 := by
      rw [List.getLast?_concat] at h
      intro hz
      exact h (by rw [hz])
    rw [show (L ++ [a]).length = L.length + 1 by simp,
      at0_append_left r (by simp), at0_cons_succ,
      show L.length = L.length + 0 by omega, at0_append_right, at0_cons_zero]
    exact ha

theorem create_fastq_record_serForm (nm sq ql : List Nat) :
    create_fastq_record nm sq ql false = serForm nm sq ql := by
  rw [create_fastq_record_eq]
  unfold serForm
  simp

theorem serForm_length (nm sq ql : List Nat) :
    (serForm nm sq ql).length = nm.length + sq.length + ql.length + 6 := by
  unfold serForm
  simp
  omega

theorem serForm_drop1 (nm sq ql : List Nat) :
    (serForm nm sq ql).drop (nm.length + 2) = sq ++ 10 :: (43 :: (10 :: (ql ++ [10]))) := by
  unfold serForm
  rw [show nm.length + 2 = nm.length + 1 + 1 from rfl, List.drop_succ_cons]
  exact drop_cons_append nm 10 _

theorem serForm_drop2 (nm sq ql : List Nat) :
    (serForm nm sq ql).drop (nm.length + sq.length + 3) = 43 :: (10 :: (ql ++ [10])) := by
  rw [show nm.length + sq.length + 3 = (nm.length + 2) + (sq.length + 1) by omega,
    ← List.drop_drop, serForm_drop1]
  exact drop_cons_append sq 10 _

theorem serForm_drop3 (nm sq ql : List Nat) :
    (serForm nm sq ql).drop (nm.length + sq.length + 5) = ql ++ [10] := by
  rw [show nm.length + sq.length + 5 = (nm.length + sq.length + 3) + 2 by omega,
    ← List.drop_drop, serForm_drop2, List.drop_succ_cons, List.drop_succ_cons, List.drop_zero]

theorem scan4_serForm (nm sq ql : List Nat) (hn : 10 ∉ nm) (hs : 10 ∉ sq) (hq : 10 ∉ ql) :
    scan4 (serForm nm sq ql) =
      some (nm.length + 1, nm.length + sq.length + 2, nm.length + sq.length + 4,
        nm.length + sq.length + ql.length + 5) := by
  have e1 : findNl (serForm nm sq ql) = some (nm.length + 1) := by
    unfold serForm
    rw [show (64 : Nat) :: (nm ++ 10 :: (sq ++ 10 :: (43 :: (10 :: (ql ++ [10])))))
        = 64 :: nm ++ 10 :: (sq ++ 10 :: (43 :: (10 :: (ql ++ [10])))) from rfl]
    rw [findNl_append_nl _ (by
      intro hmem
      rcases List.mem_cons.mp hmem with hz | hz
      · exact absurd hz.symm (by norm_num)
      · exact hn hz)]
    simp
  have e2 : findNl (sq ++ 10 :: (43 :: (10 :: (ql ++ [10])))) = some sq.length :=
    findNl_append_nl _ hs
  have e3 : findNl ((43 : Nat) :: (10 :: (ql ++ [10]))) = some 1 := by
    simp [findNl]
  have e4 : findNl (ql ++ [10]) = some ql.length := by
    rw [show ql ++ [10] = ql ++ 10 :: [] from rfl]
    exact findNl_append_nl _ hq
  unfold scan4
  rw [e1]
  try simp only []
  rw [show nm.length + 1 + 1 = nm.length + 2 by omega, serForm_drop1, e2]
  try simp only []
  rw [show nm.length + 1 + 1 + sq.length + 1 = nm.length + sq.length + 3 by omega,
    serForm_drop2, e3]
  try simp only []
  rw [show nm.length + sq.length + 3 + 1 + 1 = nm.length + sq.length + 5 by omega,
    serForm_drop3, e4]
  try simp only []
  simp only [Option.some.injEq, Prod.mk.injEq, true_and, and_true]
  omega

theorem parseRecord_serForm (nm sq ql : List Nat)
    (hcn : nm.getLast? ≠ some 13) (hcs : sq.getLast? ≠ some 13) (hcq : ql.getLast? ≠ some 13)
    (hlen : ql.length = sq.length) :
    parseRecord (serForm nm sq ql) 0 (nm.length + 1) (nm.length + sq.length + 2)
      (nm.length + sq.length + 4) (nm.length + sq.length + ql.length + 5)
      = .ok (nm, sq, ql, false) := by
  have a64 : at0 (serForm nm sq ql) 0 = 64 := rfl
  have a43 : at0 (serForm nm sq ql) (nm.length + sq.length + 3) = 43 := by
    have h0 := at0_drop (serForm nm sq ql) (nm.length + sq.length + 3) 0
    rw [serForm_drop2] at h0
    simpa using h0.symm
  have aN : at0 (serForm nm sq ql) nm.length ≠ 13 :=
    at0_penult _ (by norm_num) hcn
  have dropN : (serForm nm sq ql).drop (nm.length + 1)
      = 10 :: (sq ++ 10 :: (43 :: (10 :: (ql ++ [10])))) := by
    unfold serForm
    rw [List.drop_succ_cons]
    exact List.drop_left nm _
  have aS : at0 (serForm nm sq ql) (nm.length + 1 + sq.length) ≠ 13 := by
    have h0 := at0_drop (serForm nm sq ql) (nm.length + 1) sq.length
    rw [dropN] at h0
    rw [← h0]
    exact at0_penult _ (by norm_num) hcs
  have dropQ : (serForm nm sq ql).drop (nm.length + sq.length + 4) = 10 :: (ql ++ [10]) := by
    rw [show nm.length + sq.length + 4 = nm.length + sq.length + 3 + 1 by omega,
      ← List.drop_drop, serForm_drop2]
    rfl
  have aQ : at0 (serForm nm sq ql) (nm.length + sq.length + 4 + ql.length) ≠ 13 := by
    have h0 := at0_drop (serForm nm sq ql) (nm.length + sq.length + 4) ql.length
    rw [dropQ] at h0
    rw [← h0]
    exact at0_penult _ (by norm_num) hcq
  unfold parseRecord
  try simp only []
  rw [show nm.length + sq.length + 2 + 1 = nm.length + sq.length + 3 by omega, a64, a43]
  rw [if_neg (by norm_num), if_neg (by norm_num)]
  rw [show nm.length + 1 - 1 = nm.length by omega,
    show nm.length + sq.length + 2 - 1 = nm.length + 1 + sq.length by omega,
    show nm.length + sq.length + 4 - 1 = nm.length + sq.length + 3 by omega,
    show nm.length + sq.length + ql.length + 5 - 1
      = nm.length + sq.length + 4 + ql.length by omega, a43]
  rw [if_neg aN, if_neg aS, if_neg (by norm_num), if_neg aQ]
  rw [show nm.length + sq.length + 4 - (nm.length + sq.length + 2 + 2) = 0 by omega,
    show nm.length + sq.length + ql.length + 5 - (nm.length + sq.length + 4 + 1)
      = ql.length by omega,
    show nm.length + sq.length + 2 - (nm.length + 1 + 1) = sq.length by omega]
  rw [if_neg (by simp [hlen])]
  rw [show nm.length + 1 + 1 = nm.length + 2 by omega, serForm_drop1,
    show nm.length + sq.length + 4 + 1 = nm.length + sq.length + 5 by omega, serForm_drop3,
    show (serForm nm sq ql).drop 1
      = nm ++ 10 :: (sq ++ 10 :: (43 :: (10 :: (ql ++ [10])))) from rfl]
  rw [List.take_left, List.take_left, List.take_left]
  simp

theorem absNext_ser0 (nm sq ql : List Nat) (hn : 10 ∉ nm) (hs : 10 ∉ sq) (hq : 10 ∉ ql)
    (hcn : nm.getLast? ≠ some 13) (hcs : sq.getLast? ≠ some 13) (hcq : ql.getLast? ≠ some 13)
    (hlen : ql.length = sq.length) :
    absNext ⟨serForm nm sq ql, false, 0, false, false⟩
      = (.header false, ⟨serForm nm sq ql, false, 0, true, false⟩) := by
  rw [absNext_scan (a := ⟨serForm nm sq ql, false, 0, false, false⟩) rfl
    (scan4_serForm nm sq ql hn hs hq)]
  unfold absEmit
  rw [show (⟨serForm nm sq ql, false, 0, false, false⟩ : AState).tail = serForm nm sq ql
    from rfl]
  rw [parseRecord_serForm nm sq ql hcn hcs hcq hlen]
  try simp only []
  rw [if_pos (by simp)]

theorem absNext_ser1 (nm sq ql : List Nat) (hn : 10 ∉ nm) (hs : 10 ∉ sq) (hq : 10 ∉ ql)
    (hcn : nm.getLast? ≠ some 13) (hcs : sq.getLast? ≠ some 13) (hcq : ql.getLast? ≠ some 13)
    (hlen : ql.length = sq.length) :
    absNext ⟨serForm nm sq ql, false, 0, true, false⟩
      = (.record nm sq ql, ⟨[], false, 1, true, false⟩) := by
  rw [absNext_scan (a := ⟨serForm nm sq ql, false, 0, true, false⟩) rfl
    (scan4_serForm nm sq ql hn hs hq)]
  unfold absEmit
  rw [show (⟨serForm nm sq ql, false, 0, true, false⟩ : AState).tail = serForm nm sq ql
    from rfl]
  rw [parseRecord_serForm nm sq ql hcn hcs hcq hlen]
  try simp only []
  rw [if_neg (by simp)]
  have hdrop : (serForm nm sq ql).drop (nm.length + sq.length + ql.length + 5 + 1) = [] := by
    rw [show nm.length + sq.length + ql.length + 5 + 1 = (serForm nm sq ql).length by
      rw [serForm_length]]
    exact List.drop_length _
  simp [hdrop]

theorem absNext_ser2 (n : Nat) :
    absNext ⟨[], false, n, true, false⟩ = (.fin, ⟨[], false, n, true, true⟩) := by
  unfold absNext
  simp [scan4_nil]

/-- Peel one continuing pull off a completed run. -/
theorem runEvents_step {fuel : Nat} {s : PState} {evs : List Ev} {ev : Ev} {a1 : AState}
    (hWF : WF s) (h : runEvents fuel s = some evs)
    (habs : absNext (absOf s) = (ev, a1)) (hc : contEv ev = true) :
    ∃ f1 s1 evs1, fuel = f1 + 1 ∧ runEvents f1 s1 = some evs1 ∧ evs = ev :: evs1 ∧
      absOf s1 = a1 ∧ WF s1 := by
  cases fuel with
  | zero => exact Option.noConfusion h
  | succ f =>
    rw [runEvents] at h
    cases hn : nextLoop (f + 1) s with
    | none => rw [hn] at h; exact Option.noConfusion h
    | some p =>
      obtain ⟨ev0, s1⟩ := p
      rw [hn] at h
      try simp only [] at h
      obtain ⟨e1, e2⟩ := nextLoop_sim _ _ _ _ hWF hn
      have hev : ev0 = ev := by rw [e1, habs]
      subst hev
      obtain ⟨hst, hwf⟩ := e2 hc
      rw [if_pos hc] at h
      cases hr : runEvents f s1 with
      | none => rw [hr] at h; exact Option.noConfusion h
      | some r =>
        rw [hr] at h
        simp only [Option.map_some', Option.some.injEq] at h
        exact ⟨f, s1, r, rfl, hr, h.symm, by rw [hst, habs], hwf⟩

/-- A non-continuing pull ends the run with exactly that event. -/
theorem runEvents_stop {fuel : Nat} {s : PState} {evs : List Ev} {ev : Ev} {a1 : AState}
    (hWF : WF s) (h : runEvents fuel s = some evs)
    (habs : absNext (absOf s) = (ev, a1)) (hc : contEv ev = false) :
    evs = [ev] := by
  cases fuel with
  | zero => exact Option.noConfusion h
  | succ f =>
    rw [runEvents] at h
    cases hn : nextLoop (f + 1) s with
    | none => rw [hn] at h; exact Option.noConfusion h
    | some p =>
      obtain ⟨ev0, s1⟩ := p
      rw [hn] at h
      try simp only [] at h
      obtain ⟨e1, _⟩ := nextLoop_sim _ _ _ _ hWF hn
      have hev : ev0 = ev := by rw [e1, habs]
      subst hev
      rw [if_neg (by rw [hc]; exact Bool.false_ne_true)] at h
      simp only [Option.some.injEq] at h
      exact h.symm

/-- If a record at the head of the tail parses and the one-shot flag is set,
the pull emits exactly that record. -/
theorem absNext_record_of_parse {a : AState} {ne se sh qe : Nat} {nm sq ql : List Nat}
    {two : Bool} (heof : a.eof = false) (hscan : scan4 a.tail = some (ne, se, sh, qe))
    (hparse : parseRecord a.tail a.n ne se sh qe = .ok (nm, sq, ql, two))
    (hy : a.yielded = true) :
    (absNext a).1 = .record nm sq ql := by
  rw [absNext_scan heof hscan]
  unfold absEmit
  rw [hparse]
  try simp only []
  rw [if_neg (by simp [hy])]

/-- On an abstract header pull, the header boolean and the record located by
the immediately following pull both come from `firstParse` of the same tail. -/
theorem absNext_header_inv {a : AState} {b : Bool} {a1 : AState}
    (h : absNext a = (.header b, a1)) :
    ∃ nm sq ql, firstParse a.tail = some (nm, sq, ql, b) ∧
      (absNext a1).1 = .record nm sq ql := by
  by_cases heof : a.eof = true
  · rw [absNext_eof heof] at h
    exact absurd (congrArg Prod.fst h) (by simp)
  have heof' : a.eof = false := by simpa using heof
  unfold absNext at h
  rw [heof'] at h
  simp only [Bool.false_eq_true, if_false] at h
  cases hscan : scan4 a.tail with
  | some x =>
    obtain ⟨ne, se, sh, qe⟩ := x
    rw [hscan] at h
    try simp only [] at h
    unfold absEmit at h
    cases hparse : parseRecord a.tail a.n ne se sh qe with
    | error e =>
      rw [hparse] at h
      exact absurd (congrArg Prod.fst h) (by simp)
    | ok r =>
      obtain ⟨nm, sq, ql, two⟩ := r
      rw [hparse] at h
      try simp only [] at h
      by_cases hcond : a.n = 0 ∧ ¬ a.yielded = true
      · rw [if_pos hcond] at h
        simp only [Prod.mk.injEq, Ev.header.injEq] at h
        obtain ⟨rfl, rfl⟩ := h
        refine ⟨nm, sq, ql, ?_, ?_⟩
        · unfold firstParse
          rw [hscan]
          try simp only []
          rw [show parseRecord a.tail 0 ne se sh qe = .ok (nm, sq, ql, two)
            from hcond.1 ▸ hparse]
          rfl
        · exact absNext_record_of_parse heof' hscan hparse rfl
      · rw [if_neg hcond] at h
        exact absurd (congrArg Prod.fst h) (by simp)
  | none =>
    rw [hscan] at h
    try simp only [] at h
    by_cases hlen : a.tail.length = 0
    · rw [if_pos hlen] at h
      exact absurd (congrArg Prod.fst h) (by simp)
    rw [if_neg hlen] at h
    by_cases hsyn : ¬ a.extra = true ∧ a.tail.getLast? ≠ some 10
    · rw [if_pos hsyn] at h
      cases hscan2 : scan4 (a.tail ++ [10]) with
      | some x =>
        obtain ⟨ne, se, sh, qe⟩ := x
        rw [hscan2] at h
        try simp only [] at h
        unfold absEmit at h
        try simp only [] at h
        cases hparse : parseRecord (a.tail ++ [10]) a.n ne se sh qe with
        | error e =>
          rw [hparse] at h
          exact absurd (congrArg Prod.fst h) (by simp)
        | ok r =>
          obtain ⟨nm, sq, ql, two⟩ := r
          rw [hparse] at h
          try simp only [] at h
          by_cases hcond : a.n = 0 ∧ ¬ a.yielded = true
          · rw [if_pos hcond] at h
            simp only [Prod.mk.injEq, Ev.header.injEq] at h
            obtain ⟨rfl, rfl⟩ := h
            refine ⟨nm, sq, ql, ?_, ?_⟩
            · unfold firstParse
              rw [hscan]
              try simp only []
              rw [if_pos ⟨hlen, hsyn.2⟩, hscan2]
              try simp only []
              rw [show parseRecord (a.tail ++ [10]) 0 ne se sh qe = .ok (nm, sq, ql, two)
                from hcond.1 ▸ hparse]
              rfl
            · exact absNext_record_of_parse rfl hscan2 hparse rfl
          · rw [if_neg hcond] at h
            exact absurd (congrArg Prod.fst h) (by simp)
      | none =>
        rw [hscan2] at h
        exact absurd (congrArg Prod.fst h) (by simp)
    · rw [if_neg hsyn] at h
      exact absurd (congrArg Prod.fst h) (by simp)

/-! ## Small helpers for the claim theorems -/

theorem at0_take {l : List Nat} {n i : Nat} (h : i < n) : at0 (l.take n) i = at0 l i := by
  rcases Nat.lt_or_ge i l.length with hl | hl
  · have hlen : i < (l.take n).length := by simp only [List.length_take]; omega
    conv_rhs => rw [← List.take_append_drop n l]
    exact (at0_append_left _ hlen).symm
  · rw [at0_eq_zero_of_le hl,
      at0_eq_zero_of_le (show (l.take n).length ≤ i by simp only [List.length_take]; omega)]

theorem hasCRLF_cons_ne {c : Nat} (hc : c ≠ 13) {l : List Nat} (h : hasCRLF l = false) :
    hasCRLF (c :: l) = false := by
  cases l with
  | nil => rfl
  | cons b r => rw [hasCRLF_cons_cons]; simp [h, hc]

theorem getLast_cons_ne {c x : Nat} {l : List Nat} (hc : c ≠ x)
    (h : l.getLast? ≠ some x) : (c :: l).getLast? ≠ some x := by
  cases l with
  | nil => simpa using hc
  | cons d r => rw [List.getLast?_cons_cons]; exact h

theorem initState_WF (input : List Nat) {cap : Nat} (hcap : 1 ≤ cap) :
    WF (initState input cap) :=
  ⟨Nat.le_refl 0, Nat.zero_le _, hcap⟩

theorem absOf_initState (input : List Nat) (cap : Nat) :
    absOf (initState input cap) = ⟨input, false, 0, false, false⟩ := rfl

/-! ## Claim C1 -/

/-- C1, counterexample: on the truncated stream `@r1\nACGT\n+\n!!` the
parser raises no premature-end-of-file error at all, contrary to the
claim; the synthetic final newline completes the quality line first. -/
theorem c1_counterexample :
    (runEvents 20 (initState exShortQual 16)).map (fun evs => evs.any isPrematureEv)
      = some false := by decide

/-- C1, amended: on the truncated stream `@r1\nACGT\n+\n!!` the parser
appends a synthetic final newline, which turns `!!` into a complete
quality line of the wrong length, so the run raises the length-mismatch
format error at line 3 (not a premature-end-of-file error). -/
theorem c1_error_kind :
    runEvents 20 (initState exShortQual 16) = some [.fail .lengthMismatch 3] := by decide

/-! ## Claim C9 -/

/-- C9: the ID-matching comparison is not memory-safe.  When `id2_end`
is 0 — `header2` empty, or starting with a space or tab, with `header1`
empty or starting likewise so that the end-byte check passes — the
suffix-stripping step reads `header1[id2_end - 1]`, i.e. index `-1`,
which as a C `size_t` wraps around to an out-of-bounds read.  The
embedding returns `none` exactly on that execution path, and two such
inputs reach it. -/
theorem c9_oob_read :
    record_ids_match [] [] 0 = none ∧ record_ids_match [32, 97] [9, 98] 2 = none := by
  decide

/-! ## Claim C5 -/

/-- C5, counterexample: a name ending in a carriage return makes the
serialized record contain a CRLF pair, contrary to the claim's
unconditional no-CRLF guarantee. -/
theorem c5_counterexample :
    hasCRLF (create_fastq_record [13] [] [] false) = true := by decide

/-- C5, amended: `create_fastq_record` produces exactly the bytes
at-sign, name, LF, sequence, LF, plus, optional repeated name, LF,
qualities, LF; its length is the sum of the field lengths plus 6, plus
the name length again when `two_headers` is set; and the output is free
of CRLF provided each field is CRLF-free and does not end in a carriage
return. -/
theorem c5_serializer_shape :
    ∀ (nm sq ql : List Nat) (two : Bool),
      create_fastq_record nm sq ql two =
        64 :: nm ++ 10 :: sq ++ 10 :: 43 :: (if two then nm else []) ++ 10 :: ql ++ [10] ∧
      (create_fastq_record nm sq ql two).length =
        nm.length + sq.length + ql.length + 6 + (if two then nm.length else 0) ∧
      (hasCRLF nm = false → hasCRLF sq = false → hasCRLF ql = false →
        nm.getLast? ≠ some 13 → sq.getLast? ≠ some 13 → ql.getLast? ≠ some 13 →
        hasCRLF (create_fastq_record nm sq ql two) = false) := by
  intro nm sq ql two
  refine ⟨create_fastq_record_eq nm sq ql two, ?_, ?_⟩
  · rw [create_fastq_record_eq]
    cases two <;>
      simp only [List.length_cons, List.length_append, List.length_nil, if_true, if_false,
        Bool.false_eq_true, List.length_singleton] <;> omega
  · intro h1 h2 h3 g1 g2 g3
    rw [create_fastq_record_eq]
    have h10 : hasCRLF ([10] : List Nat) = false := rfl
    have e1 : hasCRLF (ql ++ [10]) = false := by
      rw [hasCRLF_append]
      simp [h3, g3, h10]
    have e1c : hasCRLF (10 :: (ql ++ [10])) = false :=
      hasCRLF_cons_ne (by decide) e1
    have e2 : hasCRLF ((if two then nm else []) ++ 10 :: (ql ++ [10])) = false := by
      cases two
      · simpa using e1c
      · rw [if_pos rfl, hasCRLF_append]
        simp [h1, g1, e1c]
    have e3 : hasCRLF (10 :: 43 :: ((if two then nm else []) ++ 10 :: (ql ++ [10])))
        = false :=
      hasCRLF_cons_ne (by decide) (hasCRLF_cons_ne (by decide) e2)
    have e5 : hasCRLF (sq ++ 10 :: 43 :: ((if two then nm else []) ++ 10 :: (ql ++ [10])))
        = false := by
      rw [hasCRLF_append]
      simp [h2, g2, e3]
    have e6 : hasCRLF
        (10 :: (sq ++ 10 :: 43 :: ((if two then nm else []) ++ 10 :: (ql ++ [10]))))
        = false :=
      hasCRLF_cons_ne (by decide) e5
    have e7 : hasCRLF
        (nm ++ 10 :: (sq ++ 10 :: 43 :: ((if two then nm else []) ++ 10 :: (ql ++ [10]))))
        = false := by
      rw [hasCRLF_append]
      simp [h1, g1, e6]
    have egoal := hasCRLF_cons_ne (show (64 : Nat) ≠ 13 by decide) e7
    simpa [List.append_assoc] using egoal

/-- C5, witness: the amended serializer theorem applied to the record
with name `r`, sequence `A`, qualities `!`. -/
theorem c5_witness :
    hasCRLF (create_fastq_record [114] [65] [33] false) = false :=
  (c5_serializer_shape [114] [65] [33] false).2.2
    (by decide) (by decide) (by decide) (by decide) (by decide) (by decide)

/-! ## Claim C2 -/

/-- C2, counterexample: on the empty stream the very first pull on a
fresh parser yields the end event, not the header boolean; the claimed
Init-to-EmittedHeader transition does not happen on every input. -/
theorem c2_counterexample :
    (nextLoop 5 (initState [] 4)).map Prod.fst = some Ev.fin ∧
    isHeaderEv Ev.fin = false := by decide

/-- C2, amended: the first pull on a fresh parser never yields a record
(it is the header boolean, the end event, or an error); at most one
header event occurs in a completed run from a fresh parser, and it
precedes every record; and once end of file is recorded the parser
yields the end event forever without changing state. -/
theorem c2_first_pull :
    (∀ (input : List Nat) (cap fuel : Nat) (ev : Ev) (s1 : PState),
        nextLoop fuel (initState input cap) = some (ev, s1) → isRecordEv ev = false) ∧
    (∀ (fuel : Nat) (input : List Nat) (cap : Nat) (evs : List Ev),
        runEvents fuel (initState input cap) = some evs →
        countHeader evs ≤ 1 ∧
        ∀ i, (hi : i < evs.length) → isRecordEv (evs.get ⟨i, hi⟩) = true →
          countHeader (evs.take i) = 1) ∧
    (∀ (s : PState) (fuel : Nat), s.eof = true → nextLoop (fuel + 1) s = some (.fin, s)) := by
  refine ⟨?_, ?_, ?_⟩
  · intro input cap fuel ev s1 h
    have hc := (nextLoop_class fuel _ ev s1 h).2.1
    cases hr : isRecordEv ev
    · rfl
    · exfalso
      rcases hc hr with hy | hn
      · exact absurd hy (by simp [initState])
      · exact hn rfl
  · intro fuel input cap evs h
    exact runEvents_headerOnce fuel _ evs h rfl rfl
  · intro s fuel h
    exact nextLoop_eof fuel h

/-- C2, witness: the amended theorem applied to the empty stream (first
pull yields the non-record end event), to the one-record stream
`exFull` (at most one header in its event list), and to the drained
state `exEofState` (end is emitted again without changing state). -/
theorem c2_witness :
    isRecordEv Ev.fin = false ∧
    countHeader [Ev.header false,
      Ev.record [114, 49] [65, 67, 71, 84] [33, 33, 33, 33], Ev.fin] ≤ 1 ∧
    nextLoop 1 exEofState = some (Ev.fin, exEofState) := by
  obtain ⟨hA, hB, hC⟩ := c2_first_pull
  refine ⟨hA [] 4 5 Ev.fin exEofState (by decide), ?_, hC exEofState 0 (by decide)⟩
  exact (hB 20 exFull 4
    [Ev.header false, Ev.record [114, 49] [65, 67, 71, 84] [33, 33, 33, 33], Ev.fin]
    (by decide)).1

/-! ## Claim C4 -/

/-- C4, counterexample: for the one-byte header consisting of a single
space, the comparison of the header with itself does not return true —
`id2_end` is 0 and the suffix-stripping step goes out of bounds
(modelled as `none`) — so the claimed reflexivity for every header
fails. -/
theorem c4_counterexample : ¬ record_ids_match [32] [32] 1 = some true := by decide

/-- C4, amended: whenever `record_ids_match` completes in bounds on
NUL-free headers it returns exactly the five-step policy of the spec;
the three concrete examples of the claim evaluate as stated
(`read/1 comment` vs `read/2 other` at length 13 is true, `readA` vs
`readB` at 5 is false, `read1` vs `read1extra` at 5 is false); and
reflexivity holds for every header whose first byte is not a space or
tab (so that `id2_end` is positive). -/
theorem c4_id_policy :
    (∀ (h1 h2 : List Nat) (L : Nat) (b : Bool), 0 ∉ h1 → 0 ∉ h2 →
        record_ids_match h1 h2 L = some b → idsMatchSpec h1 h2 L = b) ∧
    record_ids_match [114, 101, 97, 100, 47, 49, 32, 99, 111, 109, 109, 101, 110, 116]
      [114, 101, 97, 100, 47, 50, 32, 111, 116, 104, 101, 114] 13 = some true ∧
    record_ids_match [114, 101, 97, 100, 65] [114, 101, 97, 100, 66] 5 = some false ∧
    record_ids_match [114, 101, 97, 100, 49]
      [114, 101, 97, 100, 49, 101, 120, 116, 114, 97] 5 = some false ∧
    (∀ h : List Nat, 0 < id2End h → record_ids_match h h h.length = some true) := by
  refine ⟨?_, by decide, by decide, by decide, ?_⟩
  · intro h1 h2 L b n1 n2 h
    exact record_ids_match_spec n1 n2 h
  · intro h hk
    exact record_ids_match_refl hk

/-- C4, witness: the amended policy theorem applied to the headers `r1`
and `s2` (policy agreement) and to the header `r1` against itself
(reflexivity). -/
theorem c4_witness :
    idsMatchSpec [114, 49] [115, 50] 2 = false ∧
    record_ids_match [114, 49] [114, 49] 2 = some true := by
  obtain ⟨hpol, _, _, _, hrefl⟩ := c4_id_policy
  exact ⟨hpol [114, 49] [115, 50] 2 false (by decide) (by decide) (by decide),
    hrefl [114, 49] (by decide)⟩

/-! ## Claim C6 -/

/-- C6: every structural format error raised by a pull carries the
0-based line number computed from the records emitted so far: `4*n`
for a bad record-start byte, `4*n + 2` for a bad plus-line byte or a
mismatching non-empty second header, and `4*n + 3` for a quality line
whose length differs from the sequence line. -/
theorem c6_error_lines :
    ∀ (fuel : Nat) (s : PState) (m : Msg) (l : Nat) (s1 : PState),
      nextLoop fuel s = some (.fail m l, s1) →
      (∀ c, m = .startChar c → l = s.number_of_records * 4) ∧
      (∀ c, m = .plusChar c → l = s.number_of_records * 4 + 2) ∧
      (∀ a b, m = .headerMismatch a b → l = s.number_of_records * 4 + 2) ∧
      (m = .lengthMismatch → l = s.number_of_records * 4 + 3) := by
  intro fuel s m l s1 h
  obtain ⟨_, _, _, c4, c5, c6, c7, _⟩ := nextLoop_class fuel s (.fail m l) s1 h
  refine ⟨?_, ?_, ?_, ?_⟩
  · intro c hm
    exact c4 c l (by rw [hm])
  · intro c hm
    exact c5 c l (by rw [hm])
  · intro a b hm
    exact c6 a b l (by rw [hm])
  · intro hm
    exact c7 l (by rw [hm])

/-- C6, witness: the line-number theorem applied to the stream
`A\n\n\n\n`, whose first pull fails the at-sign check with line 0. -/
theorem c6_witness : (0 : Nat) = (initState exBadStart 8).number_of_records * 4 := by
  have h := c6_error_lines 5 (initState exBadStart 8) (.startChar 65) 0 exBadStartState
    (by decide)
  exact h.1 65 rfl

/-! ## Claim C3 -/

/-- C3, counterexample: the record named `x\r` (a name ending in a
carriage return, parsed from a stream in which the name line ends in
`\r\r\n`) round-trips to the record named `x`: serializing and
re-parsing does not give back an equal record, contrary to the claim's
unconditional round-trip. -/
theorem c3_counterexample :
    runEvents 20 (initState exCRName 32)
      = some [.header false, .record [120, 13] [65, 67] [33, 33], .fin] ∧
    runEvents 20 (initState (create_fastq_record [120, 13] [65, 67] [33, 33] false) 32)
      = some [.header false, .record [120] [65, 67] [33, 33], .fin] ∧
    ([120, 13] : List Nat) ≠ [120] := by decide

/-- C3, amended: serialization round-trips for every record whose
fields are newline-free and do not end in a carriage return and whose
quality length equals the sequence length: any completed run of the
parser on `create_fastq_record name seq qual false`, at any initial
capacity of at least 1, yields exactly the header boolean, the single
record with the same three fields, and the end event. -/
theorem c3_roundtrip :
    ∀ (nm sq ql : List Nat) (cap fuel : Nat) (evs : List Ev),
      10 ∉ nm → 10 ∉ sq → 10 ∉ ql →
      nm.getLast? ≠ some 13 → sq.getLast? ≠ some 13 → ql.getLast? ≠ some 13 →
      ql.length = sq.length → 1 ≤ cap →
      runEvents fuel (initState (create_fastq_record nm sq ql false) cap) = some evs →
      evs = [.header false, .record nm sq ql, .fin] := by
  intro nm sq ql cap fuel evs hn hs hq hcn hcs hcq hlen hcap hrun
  rw [create_fastq_record_serForm] at hrun
  have hWF0 := initState_WF (serForm nm sq ql) hcap
  have hstep0 : absNext (absOf (initState (serForm nm sq ql) cap))
      = (.header false, ⟨serForm nm sq ql, false, 0, true, false⟩) := by
    rw [absOf_initState]
    exact absNext_ser0 nm sq ql hn hs hq hcn hcs hcq hlen
  obtain ⟨f1, s1, evs1, hf1, h1, he1, ha1, w1⟩ := runEvents_step hWF0 hrun hstep0 rfl
  have hstep1 : absNext (absOf s1) = (.record nm sq ql, ⟨[], false, 1, true, false⟩) := by
    rw [ha1]
    exact absNext_ser1 nm sq ql hn hs hq hcn hcs hcq hlen
  obtain ⟨f2, s2, evs2, hf2, h2, he2, ha2, w2⟩ := runEvents_step w1 h1 hstep1 rfl
  have hstep2 : absNext (absOf s2) = (.fin, ⟨[], false, 1, true, true⟩) := by
    rw [ha2]
    exact absNext_ser2 1
  have h3 := runEvents_stop w2 h2 hstep2 rfl
  rw [he1, he2, h3]

/-- C3, witness: the round-trip theorem applied to the record with name
`r1`, sequence `ACGT`, qualities `!!!!`, at capacity 8 and fuel 20. -/
theorem c3_witness :
    ([Ev.header false, Ev.record [114, 49] [65, 67, 71, 84] [33, 33, 33, 33], Ev.fin]
        : List Ev)
      = [Ev.header false, Ev.record [114, 49] [65, 67, 71, 84] [33, 33, 33, 33], Ev.fin] :=
  c3_roundtrip [114, 49] [65, 67, 71, 84] [33, 33, 33, 33] 8 20
    [Ev.header false, Ev.record [114, 49] [65, 67, 71, 84] [33, 33, 33, 33], Ev.fin]
    (by decide) (by decide) (by decide) (by decide) (by decide) (by decide) (by decide)
    (by decide) (by decide)

/-! ## Claim C7 -/

/-- C7: `paired_fastq_heads buf1 buf2 end1 end2` returns prefix lengths
under which the two buffers contain the same number of newlines; that
number is `4 * min (n1 / 4) (n2 / 4)` for the newline counts `n1`, `n2`
of the two scanned regions, hence a multiple of 4; each returned prefix
is empty or ends immediately after a newline; and the returned lengths
stay within the scanned regions. -/
theorem c7_paired_heads :
    ∀ (buf1 buf2 : List Nat) (end1 end2 : Nat),
      countNl (buf1.take (paired_fastq_heads buf1 buf2 end1 end2).1)
        = countNl (buf2.take (paired_fastq_heads buf1 buf2 end1 end2).2) ∧
      countNl (buf1.take (paired_fastq_heads buf1 buf2 end1 end2).1)
        = 4 * min (countNl (buf1.take end1) / 4) (countNl (buf2.take end2) / 4) ∧
      countNl (buf1.take (paired_fastq_heads buf1 buf2 end1 end2).1) % 4 = 0 ∧
      ((paired_fastq_heads buf1 buf2 end1 end2).1 = 0 ∨
        at0 buf1 ((paired_fastq_heads buf1 buf2 end1 end2).1 - 1) = 10) ∧
      ((paired_fastq_heads buf1 buf2 end1 end2).2 = 0 ∨
        at0 buf2 ((paired_fastq_heads buf1 buf2 end1 end2).2 - 1) = 10) ∧
      (paired_fastq_heads buf1 buf2 end1 end2).1 ≤ end1 ∧
      (paired_fastq_heads buf1 buf2 end1 end2).2 ≤ end2 ∧
      (paired_fastq_heads buf1 buf2 end1 end2).1 ≤ buf1.length ∧
      (paired_fastq_heads buf1 buf2 end1 end2).2 ≤ buf2.length := by
  intro buf1 buf2 end1 end2
  have H := pfhLoop_invariant (buf1.take end1) (buf2.take end2)
    ((buf1.take end1).length + 1) 0 0 0 0 0 0
    (by omega) (Nat.zero_le _) (Nat.zero_le _) rfl rfl (by omega)
    rfl rfl (Or.inl rfl) (Or.inl rfl) (Nat.zero_le _) (Nat.zero_le _)
  rw [List.drop_zero, List.drop_zero] at H
  have hPE : paired_fastq_heads buf1 buf2 end1 end2
      = pfhLoop ((buf1.take end1).length + 1) (buf1.take end1) (buf2.take end2)
          0 0 0 0 0 := rfl
  rw [← hPE] at H
  obtain ⟨H1, H2, H3, H4, H5, H6⟩ := H
  have hl1 : (paired_fastq_heads buf1 buf2 end1 end2).1 ≤ end1 := by
    have h := H5
    simp only [List.length_take] at h
    omega
  have hl1' : (paired_fastq_heads buf1 buf2 end1 end2).1 ≤ buf1.length := by
    have h := H5
    simp only [List.length_take] at h
    omega
  have hl2 : (paired_fastq_heads buf1 buf2 end1 end2).2 ≤ end2 := by
    have h := H6
    simp only [List.length_take] at h
    omega
  have hl2' : (paired_fastq_heads buf1 buf2 end1 end2).2 ≤ buf2.length := by
    have h := H6
    simp only [List.length_take] at h
    omega
  have ht1 : (buf1.take end1).take (paired_fastq_heads buf1 buf2 end1 end2).1
      = buf1.take (paired_fastq_heads buf1 buf2 end1 end2).1 := by
    rw [List.take_take, Nat.min_eq_left hl1]
  have ht2 : (buf2.take end2).take (paired_fastq_heads buf1 buf2 end1 end2).2
      = buf2.take (paired_fastq_heads buf1 buf2 end1 end2).2 := by
    rw [List.take_take, Nat.min_eq_left hl2]
  rw [ht1] at H1
  rw [ht2] at H2
  refine ⟨by rw [H1, H2], H1, by rw [H1]; omega, ?_, ?_, hl1, hl2, hl1', hl2'⟩
  · rcases H3 with h | h
    · exact Or.inl h
    · rcases Nat.eq_zero_or_pos (paired_fastq_heads buf1 buf2 end1 end2).1 with hz | hpos
      · exact Or.inl hz
      · refine Or.inr ?_
        exact ((@at0_take buf1 end1
          ((paired_fastq_heads buf1 buf2 end1 end2).1 - 1) (by omega)).symm.trans h)
  · rcases H4 with h | h
    · exact Or.inl h
    · rcases Nat.eq_zero_or_pos (paired_fastq_heads buf1 buf2 end1 end2).2 with hz | hpos
      · exact Or.inl hz
      · refine Or.inr ?_
        exact ((@at0_take buf2 end2
          ((paired_fastq_heads buf1 buf2 end1 end2).2 - 1) (by omega)).symm.trans h)

/-! ## Claim C8 -/

/-- C8: the initial buffer capacity is observationally irrelevant —
completed runs of the parser on the same input with initial capacity 1
and with initial capacity `1 <<< 20` yield the same event sequence
(same header boolean, same records in order, same terminator). -/
theorem c8_capacity_transparent :
    ∀ (input : List Nat) (f1 f2 : Nat) (evs1 evs2 : List Ev),
      runEvents f1 (initState input 1) = some evs1 →
      runEvents f2 (initState input (1 <<< 20)) = some evs2 →
      evs1 = evs2 := by
  intro input f1 f2 evs1 evs2 h1 h2
  exact runEvents_agree f1 f2 (initState input 1) (initState input (1 <<< 20)) evs1 evs2
    (initState_WF input (by omega)) (initState_WF input (by decide)) rfl h1 h2

/-- C8, witness: the capacity-transparency theorem applied to the
stream `exCRName` at capacities 1 and `1 <<< 20`. -/
theorem c8_witness :
    ([Ev.header false, Ev.record [120, 13] [65, 67] [33, 33], Ev.fin] : List Ev)
      = [Ev.header false, Ev.record [120, 13] [65, 67] [33, 33], Ev.fin] :=
  c8_capacity_transparent exCRName 40 20
    [Ev.header false, Ev.record [120, 13] [65, 67] [33, 33], Ev.fin]
    [Ev.header false, Ev.record [120, 13] [65, 67] [33, 33], Ev.fin]
    (by decide) (by decide)

/-! ## Claim C10 -/

/-- C10: the pull that yields the header boolean does not consume the
first record — it leaves `record_start` and the record counter at their
initial values and only sets the one-shot `yielded_two_headers` flag —
and the immediately following pull yields a record built from the very
first record of the input, the one whose validation determined the
header boolean. -/
theorem c10_header_frame :
    ∀ (input : List Nat) (cap f1 f2 : Nat) (b : Bool) (ev2 : Ev) (s1 s2 : PState),
      1 ≤ cap →
      nextLoop f1 (initState input cap) = some (.header b, s1) →
      nextLoop f2 s1 = some (ev2, s2) →
      s1.record_start = (initState input cap).record_start ∧
      s1.number_of_records = (initState input cap).number_of_records ∧
      s1.yielded_two_headers = true ∧
      ∃ nm sq ql, firstParse input = some (nm, sq, ql, b) ∧ ev2 = .record nm sq ql := by
  intro input cap f1 f2 b ev2 s1 s2 hcap h1 h2
  have hWF0 := initState_WF input hcap
  obtain ⟨e1, e2⟩ := nextLoop_sim f1 (initState input cap) (.header b) s1 hWF0 h1
  obtain ⟨hst, hWF1⟩ := e2 rfl
  have hA : absNext (absOf (initState input cap)) = (.header b, absOf s1) := by
    rw [e1, hst]
  obtain ⟨nm, sq, ql, hfp, hrec⟩ := absNext_header_inv hA
  obtain ⟨_, _, c3, _, _, _, _, c8⟩ :=
    nextLoop_class f1 (initState input cap) (.header b) s1 h1
  have hy : s1.yielded_two_headers = true := by
    simpa [initState, isHeaderEv] using (c3 rfl).1
  have hn : s1.number_of_records = 0 := by
    simpa [initState, isRecordEv] using (c3 rfl).2
  have hrs : s1.record_start = 0 := by
    rcases c8 rfl with h | h
    · simpa [initState] using h
    · exact h
  obtain ⟨e1', _⟩ := nextLoop_sim f2 s1 ev2 s2 hWF1 h2
  refine ⟨hrs, hn, hy, nm, sq, ql, hfp, ?_⟩
  rw [e1', hrec]

/-- C10, witness: the frame theorem applied to the stream `exFull` at
capacity 32: the header pull leaves the state at `exHeaderState`
(nothing consumed, flag set) and the next pull yields the first
record. -/
theorem c10_witness :
    exHeaderState.record_start = (initState exFull 32).record_start ∧
    exHeaderState.number_of_records = (initState exFull 32).number_of_records ∧
    exHeaderState.yielded_two_headers = true ∧
    ∃ nm sq ql, firstParse exFull = some (nm, sq, ql, false) ∧
      Ev.record [114, 49] [65, 67, 71, 84] [33, 33, 33, 33] = Ev.record nm sq ql :=
  c10_header_frame exFull 32 20 20 false
    (Ev.record [114, 49] [65, 67, 71, 84] [33, 33, 33, 33]) exHeaderState exRecordState
    (by decide) (by decide) (by decide)

end Dnaio
